import Mathlib

/-!
# Verification of the aeroref remark transform passes

This file gives a shallow embedding, in Lean 4, of the two syntax-tree
transform passes of the repository:

* `src/remark-section-transform.mjs` — the heading-to-section transform
  (the sectionizer, the Text/ID parser, the ToC nester and the plugin
  entry point), and
* `src/remark-code-transform.mjs` — the code-block transform.

JavaScript strings are modelled as Lean `String` / `List Char`; the two
regular expressions of the source are modelled as executable scanners that
mirror the backtracking behaviour of the JS regex engine on the concrete
patterns; thrown JS exceptions are modelled with `Except String`; the
mutable document tree is modelled by structural recursion that mirrors the
`unist-util-visit` traversal together with the in-place `splice` performed
by the sectionizer; `console.warn` output is modelled as an ordered list of
the warning strings.
-/

/-! ## JavaScript character classes and string helpers -/

/-- The JS regex class `\s` (also the set trimmed by `String.prototype.trim`
and `trimEnd`): space, `\t`, `\n`, `\v`, `\f`, `\r`, NBSP, Ogham space,
U+2000–U+200A, line/paragraph separators, narrow NBSP, mathematical space,
ideographic space and BOM. -/
def jsWhitespace (c : Char) : Bool :=
  let n := c.toNat
  n = 0x20 || n = 0x09 || n = 0x0a || n = 0x0b || n = 0x0c || n = 0x0d ||
  n = 0xa0 || n = 0x1680 || (0x2000 ≤ n && n ≤ 0x200a) ||
  n = 0x2028 || n = 0x2029 || n = 0x202f || n = 0x205f || n = 0x3000 || n = 0xfeff

/-- The JS regex metacharacter `.` (no `s` flag): any character except the
line terminators `\n`, `\r`, U+2028 and U+2029. -/
def dotOk (c : Char) : Bool :=
  let n := c.toNat
  !(n = 0x0a || n = 0x0d || n = 0x2028 || n = 0x2029)

/-- `String.prototype.trimEnd` on the underlying character list. -/
def jsTrimEndList (cs : List Char) : List Char :=
  (cs.reverse.dropWhile jsWhitespace).reverse

/-- `String.prototype.trimEnd`. -/
def jsTrimEnd (s : String) : String :=
  String.mk (jsTrimEndList s.data)

/-- `String.prototype.trim` on the underlying character list. -/
def jsTrimList (cs : List Char) : List Char :=
  jsTrimEndList (cs.dropWhile jsWhitespace)

/-- `String.prototype.trim`. -/
def jsTrim (s : String) : String :=
  String.mk (jsTrimList s.data)

/-! ## lodash `_.kebabCase`

`_.kebabCase(s)` is `words(deburr(s).replace(/['’]/g, ''))` lower-cased
and joined with `-`.  We model it for the fragment that the transform can
meet in practice: `deburr` is the identity on ASCII input, apostrophes
(`'` and U+2019) are removed, and `words` splits the string into maximal
alphanumeric runs which are further split at camel-case boundaries
(lower→upper, letter↔digit, and before the last upper of an upper run that
is followed by a lower).  lodash's special treatment of English ordinals
("1st", "2nd", …) and of non-ASCII letters is not modelled. -/

def isAsciiUpper (c : Char) : Bool := 'A' ≤ c && c ≤ 'Z'

def isAsciiLower (c : Char) : Bool := 'a' ≤ c && c ≤ 'z'

def isAsciiDigit (c : Char) : Bool := '0' ≤ c && c ≤ '9'

def isAsciiAlnum (c : Char) : Bool := isAsciiUpper c || isAsciiLower c || isAsciiDigit c

/-- Worker for `alnumRuns`: `cur` is the current alphanumeric run,
reversed (empty when no run is open). -/
def alnumRunsGo (cur : List Char) : List Char → List (List Char)
  | [] => if cur.isEmpty then [] else [cur.reverse]
  | c :: rest =>
    if isAsciiAlnum c then alnumRunsGo (c :: cur) rest
    else if cur.isEmpty then alnumRunsGo [] rest
    else cur.reverse :: alnumRunsGo [] rest

/-- Split a string into its maximal runs of alphanumeric characters;
every other character is a separator and is dropped. -/
def alnumRuns (cs : List Char) : List (List Char) :=
  alnumRunsGo [] cs

/-- Is there a word boundary between a previous character `a` and the next
character `b`, where `rest` is what follows `b`?  (camel-case splitting as
performed by lodash's word regex on ASCII runs). -/
def camelBoundary (a b : Char) (rest : List Char) : Bool :=
  (isAsciiLower a && isAsciiUpper b) ||
  ((isAsciiLower a || isAsciiUpper a) && isAsciiDigit b) ||
  (isAsciiDigit a && (isAsciiLower b || isAsciiUpper b)) ||
  (isAsciiUpper a && isAsciiUpper b &&
    (match rest with | r :: _ => isAsciiLower r | [] => false))

/-- Split one alphanumeric run at camel-case boundaries.  `acc` is the
current word, reversed. -/
def camelGo (acc : List Char) : List Char → List (List Char)
  | [] => [acc.reverse]
  | b :: rest =>
    let boundary :=
      match acc with
      | a :: _ => camelBoundary a b rest
      | [] => false
    if boundary then acc.reverse :: camelGo [b] rest else camelGo (b :: acc) rest

/-- Split one alphanumeric run into words. -/
def camelSplit : List Char → List (List Char)
  | [] => []
  | c :: rest => camelGo [c] rest

/-- lodash `words` on the apostrophe-stripped string. -/
def kebabWords (cs : List Char) : List (List Char) :=
  ((alnumRuns cs).map camelSplit).flatten

/-- lodash `_.kebabCase`. -/
def kebabCase (s : String) : String :=
  let cs := s.data.filter (fun c => !(c = '\'' || c.toNat = 0x2019))
  String.intercalate "-" ((kebabWords cs).map (fun w => String.mk (w.map Char.toLower)))

/-! ## The Text/ID parser (`parseTextWithId`)

The source matches `text` against the regex `/^(.+?)\s*\(#([^)]+)\)$/`.
We model the regex by an executable scanner with exactly the backtracking
behaviour of the JS engine on this pattern:

* group 1 (`.+?`, lazy) is grown one character at a time from length 1;
* after the candidate group 1, `\s*` greedily consumes whitespace — it can
  never give characters back, since the following `\(` cannot match a
  whitespace character;
* `\(#` must then match literally;
* `[^)]+` greedily consumes non-`)` characters and cannot give characters
  back either (the following `\)` cannot match a non-`)` character), so the
  suffix matches exactly when the rest of the string consists of at least
  one non-`)` character followed by a final `)`.

The first (shortest) candidate for group 1 whose suffix matches wins. -/

/-- The part after `\(#`: succeeds iff the input is `idc ++ [')']` with
`idc` nonempty and free of `')'`, returning `idc` (regex `[^)]+\)$`). -/
def idPart (cs : List Char) : Option (List Char) :=
  if (cs.takeWhile (fun c => !(c = ')'))).length ≥ 1 ∧
     cs.dropWhile (fun c => !(c = ')')) = [')']
  then some (cs.takeWhile (fun c => !(c = ')'))) else none

/-- The regex tail `\s*\(#([^)]+)\)$` applied at a given position:
greedily skip whitespace, require `(#`, then `idPart`. -/
def matchSuffix : List Char → Option (List Char)
  | [] => none
  | c :: rest =>
    if jsWhitespace c then matchSuffix rest
    else if c = '(' then
      match rest with
      | [] => none
      | c2 :: rest2 => if c2 = '#' then idPart rest2 else none
    else none

/-- Lazy scan for group 1: try every nonempty prefix (shortest first) whose
characters are all `.`-matchable, and return the first one whose remainder
matches the suffix pattern, together with the captured id. -/
def tryMatch (g : List Char) : List Char → Option (List Char × List Char)
  | [] => none
  | c :: rest =>
    if dotOk c then
      match matchSuffix rest with
      | some idc => some ((g ++ [c]), idc)
      | none => tryMatch (g ++ [c]) rest
    else none

/-- The whole regex `/^(.+?)\s*\(#([^)]+)\)$/`: `some (group1, group2)` on
a match, `none` otherwise. -/
def regexMatch (cs : List Char) : Option (List Char × List Char) :=
  tryMatch [] cs

/-- Result record of the Text/ID parser. -/
structure ParsedText where
  title : String
  id : String
deriving Repr, DecidableEq

/-- `parseTextWithId` from `remark-section-transform.mjs`: on a regex match
the title is group 1 trimmed and the id is group 2; otherwise the title is
the input unchanged and the id its kebab-case slug. -/
def parseTextWithId (text : String) : ParsedText :=
  match regexMatch text.data with
  | some (g, idc) => { title := jsTrim (String.mk g), id := String.mk idc }
  | none => { title := text, id := kebabCase text }

/-! ## The code-block transform (`remark-code-transform.mjs`)

`parseMeta` repeatedly matches the regex `/(\w+)=(?:"([^"]*)"|([^\s]+))/g`
against the meta string and assigns `attributes[key] = quotedValue ||
unquotedValue`.  We model the scan directly: at each position, a match
needs a maximal nonempty run of word characters followed by `=`; the
quoted alternative succeeds iff an opening `"` is followed by a closing
`"` (capturing the characters between, possibly none); otherwise the
unquoted alternative takes the maximal nonempty run of non-whitespace
characters.  Neither alternative can backtrack internally on this pattern.
A parsed value is `none` exactly when JS would store `undefined`, i.e.
when the quoted value is the empty string (`"" || undefined`). -/

/-- The JS regex class `\w`: ASCII letters, digits and underscore. -/
def isWordChar (c : Char) : Bool :=
  isAsciiAlnum c || c = '_'

/-- Try to match one `key=value` entry at the current position.  Returns
the key, the stored value (`none` models `undefined`, stored for an empty
quoted value) and the rest of the input after the match. -/
def matchMetaEntry (cs : List Char) : Option (String × Option String × List Char) :=
  let key := cs.takeWhile isWordChar
  let afterKey := cs.dropWhile isWordChar
  if key.isEmpty then none
  else
    match afterKey with
    | '=' :: afterEq =>
      match afterEq with
      | '"' :: afterQuote =>
        let inner := afterQuote.takeWhile (fun c => !(c = '"'))
        match afterQuote.dropWhile (fun c => !(c = '"')) with
        | '"' :: rest =>
          -- quoted value found; `"" || undefined` is `undefined`
          some (String.mk key, if inner.isEmpty then none else some (String.mk inner), rest)
        | _ =>
          -- no closing quote: the unquoted alternative matches, starting at `"`
          let v := ('"' :: afterQuote).takeWhile (fun c => !jsWhitespace c)
          let rest := ('"' :: afterQuote).dropWhile (fun c => !jsWhitespace c)
          if v.isEmpty then none else some (String.mk key, some (String.mk v), rest)
      | _ =>
        let v := afterEq.takeWhile (fun c => !jsWhitespace c)
        let rest := afterEq.dropWhile (fun c => !jsWhitespace c)
        if v.isEmpty then none else some (String.mk key, some (String.mk v), rest)
    | _ => none

/-- Global scan (`/g`): find successive leftmost matches; on failure at a
position, advance one character, as the regex engine does. -/
def scanMeta (fuel : Nat) : List Char → List (String × Option String)
  | [] => []
  | c :: rest =>
    match fuel with
    | 0 => []
    | fuel + 1 =>
      match matchMetaEntry (c :: rest) with
      | some (k, v, rest') => (k, v) :: scanMeta fuel rest'
      | none => scanMeta fuel rest

/-- `parseMeta` from `remark-code-transform.mjs`, as the ordered list of
`key = value` assignments performed on the attributes object (a later
assignment to the same key overwrites the earlier one).  The fuel is the
input length, enough since every step consumes at least one character. -/
def parseMeta (meta : String) : List (String × Option String) :=
  scanMeta meta.data.length meta.data

/-- Reading `attributes[k]` of the object built by `parseMeta`:
`some v` when the last assignment to `k` stored `v`; `none` when the key
was never assigned (JS `undefined`). -/
def metaGet (attrs : List (String × Option String)) (k : String) : Option (Option String) :=
  ((attrs.filter (fun e => e.1 = k)).getLast?).map (fun e => e.2)

/-- JS truthiness of `meta[k]` for the string-or-undefined values stored by
`parseMeta`: true iff the key maps to a nonempty string. -/
def metaTruthy (attrs : List (String × Option String)) (k : String) : Option String :=
  match metaGet attrs k with
  | some (some v) => if v = "" then none else some v
  | _ => none

/-- The produced `CodeBox` element.  The `code` attribute of the source
carries an `mdxJsxAttributeValueExpression` whose estree is the string
literal of the raw code; it is modelled by the code string itself. -/
structure CodeBoxElement where
  name : String
  attributes : List (String × String)
deriving Repr, DecidableEq

/-- The element built by `remarkCodeTransform` for a code node with the
given `value`, `lang` and `meta` (each `''` when absent, as in the
source's `node.value || ''` etc.): the fixed `code` and `language`
attributes, plus an `id` attribute exactly when `meta.id` is truthy. -/
def mkCodeBoxElement (code lang meta : String) : CodeBoxElement :=
  let attrs := parseMeta meta
  let base := [("code", code), ("language", lang)]
  match metaTruthy attrs "id" with
  | some v => { name := "CodeBox", attributes := base ++ [("id", v)] }
  | none => { name := "CodeBox", attributes := base }

/-! ## The document tree

mdast inline (phrasing) content: a heading's children.  Only the shallow
`text` children matter to the transform (`extractTextFromHeading` filters
`type === 'text'` and joins the `value`s); all other inline node kinds
(emphasis, links, math, …) are collapsed into `otherInline`.  Inline
content never contains heading nodes. -/
inductive Inline where
  | text (value : String)
  | otherInline
deriving Repr, DecidableEq

/-- mdast block-level nodes, as far as the section transform observes them:

* `heading` with its `depth` and inline children;
* `exportNode` — a node with `type === 'export'` (a section boundary);
* `paragraph` — a block carrying inline children (also stands for any
  other block whose children are inline content only);
* `container` — a block carrying block children (blockquote, list item,
  …), which the traversal descends into;
* `leaf` — any other childless block (code, thematicBreak, …);
* `mdxJsxFlowElement` — a structured block node, with its component
  `name`, its `title` and `id` attributes and its children (the shape
  produced by the transform). -/
inductive Node where
  | heading (depth : Nat) (children : List Inline)
  | exportNode
  | paragraph (children : List Inline)
  | container (children : List Node)
  | leaf
  | mdxJsxFlowElement (name : String) (title : String) (id : String) (children : List Node)
deriving Repr

/-- A flat ToC record `{depth, title, id}` pushed by the sectionizer. -/
structure SectionRecord where
  depth : Nat
  title : String
  id : String
deriving Repr, DecidableEq

/-- The `isEnd` predicate of `sectionizeToComponent`: a following sibling
of type `heading` (any depth) or `export` ends the content span. -/
def isEnd : Node → Bool
  | .heading _ _ => true
  | .exportNode => true
  | _ => false

/-- `extractTextFromHeading`: concatenate the `value`s of the heading's
`text` children only (shallow filter; all other inline content is
dropped). -/
def extractTextFromHeading (children : List Inline) : String :=
  String.join (children.filterMap (fun c =>
    match c with
    | .text v => some v
    | .otherInline => none))

/-- The `componentMap` object literal of `getComponentNameForDepth`. -/
def componentMap : Nat → Option String
  | 1 => some "Section"
  | 2 => some "SubSection"
  | 3 => some "SubSubSection"
  | 4 => some "SubSubSubSection"
  | _ => none

/-- `getComponentNameForDepth`: the component name for a supported depth,
a thrown `Error` (modelled with `Except.error`) otherwise. -/
def getComponentNameForDepth (depth : Nat) : Except String String :=
  match componentMap depth with
  | some name => .ok name
  | none =>
    .error ("BUG: Unexpected heading depth " ++ toString depth ++
      " encountered in remark-section-transform plugin. " ++
      "This should never happen since the plugin only processes depths 1-4. " ++
      "Please report this as a bug.")

/-- The `console.warn` text emitted for a depth-1 heading, naming the
parsed title and the parsed id that the render layer will override. -/
def depthOneWarning (title id : String) : String :=
  "\nWARNING:" ++ "Section with title\n" ++ " " ++ title ++ "\n" ++
  "will be given the generic id\n" ++ " page_title\n" ++
  "instead of the custom id\n" ++ " " ++ id ++ ".\n"

/-- The single `visit` traversal of `remarkSectionTransform` over the
ordered children of one parent, with the in-place splice performed by
`sectionizeToComponent`.  Mirrors `unist-util-visit`:

* a heading passing the test `depth >= 1 && depth <= 4` is sectionized:
  its content span is every following sibling up to (excluding) the first
  `isEnd` boundary (`findAfter` + `slice`); the heading and its span are
  replaced by one `mdxJsxFlowElement` (`splice`), a `{depth, title, id}`
  record is pushed, and a warning is printed for depth 1; the traversal
  then resumes at the sibling after the single replacement node, i.e. at
  the boundary — the replacement and the absorbed span are not revisited;
* any other node is left in place and its child list (if any) is
  traversed; inline children contain no headings, so descending into them
  is a no-op;
* a thrown error (only possible in `getComponentNameForDepth`, after the
  warning is printed) aborts the traversal.

Returns the mutated children, the pushed ToC records and the printed
warnings, both in traversal order. -/
def transformList : List Node → Except String (List Node × List SectionRecord × List String)
  | [] => .ok ([], [], [])
  | .heading depth hchildren :: rest =>
    if 1 ≤ depth ∧ depth ≤ 4 then
      let text := jsTrimEnd (extractTextFromHeading hchildren)
      let parsed := parseTextWithId text
      let warns := if depth = 1 then [depthOneWarning parsed.title parsed.id] else []
      let contentWithoutHeading := rest.takeWhile (fun m => !isEnd m)
      match getComponentNameForDepth depth with
      | .error e => .error e
      | .ok componentName =>
        match transformList (rest.dropWhile (fun m => !isEnd m)) with
        | .error e => .error e
        | .ok (outTail, tocTail, warnTail) =>
          .ok (.mdxJsxFlowElement componentName parsed.title parsed.id
                 contentWithoutHeading :: outTail,
               ⟨depth, parsed.title, parsed.id⟩ :: tocTail,
               warns ++ warnTail)
    else
      match transformList rest with
      | .error e => .error e
      | .ok (outTail, tocTail, warnTail) =>
        .ok (.heading depth hchildren :: outTail, tocTail, warnTail)
  | .container cs :: rest =>
    match transformList cs with
    | .error e => .error e
    | .ok (cs', tocC, warnC) =>
      match transformList rest with
      | .error e => .error e
      | .ok (outTail, tocTail, warnTail) =>
        .ok (.container cs' :: outTail, tocC ++ tocTail, warnC ++ warnTail)
  | .mdxJsxFlowElement nm t i cs :: rest =>
    match transformList cs with
    | .error e => .error e
    | .ok (cs', tocC, warnC) =>
      match transformList rest with
      | .error e => .error e
      | .ok (outTail, tocTail, warnTail) =>
        .ok (.mdxJsxFlowElement nm t i cs' :: outTail, tocC ++ tocTail, warnC ++ warnTail)
  | n :: rest =>
    match transformList rest with
    | .error e => .error e
    | .ok (outTail, tocTail, warnTail) => .ok (n :: outTail, tocTail, warnTail)
termination_by l => sizeOf l
decreasing_by
  all_goals simp_all
  all_goals try omega
  · have hdw : ∀ (p : Node → Bool) (l : List Node),
        sizeOf (List.dropWhile p l) ≤ sizeOf l := by
      intro p l
      induction l with
      | nil => simp [List.dropWhile]
      | cons a l ih =>
        simp only [List.dropWhile]
        cases p a
        · simp
        · simp
          omega
    have := hdw (fun m => !isEnd m) rest
    omega

/-! ## The ToC nester (`nestHeadings`)

The source creates one mutable object `{...heading, children: []}` per
filtered record, registers it in the `parents` map under its depth
(overwriting), then appends it to the children of `parents.get(d)` for the
greatest `d` in `heading.depth - 1 … 1` that is registered, or to the
top-level result array when none is.

Mutable objects are modelled as heap indices in creation order: the graph
keeps each node's record, each node's ordered list of children indices
(push = append), the ordered list of root indices and the `parents` map as
an association list with the most recent entry first.  The value returned
by the JS function — the array of nested plain objects — is the
materialization of this graph from the roots. -/

/-- An output ToC node `{depth, title, id, children}`. -/
inductive TocNode where
  | mk (depth : Nat) (title : String) (id : String) (children : List TocNode)
deriving Repr

def TocNode.depth : TocNode → Nat
  | .mk d _ _ _ => d

def TocNode.title : TocNode → String
  | .mk _ t _ _ => t

def TocNode.id : TocNode → String
  | .mk _ _ i _ => i

def TocNode.children : TocNode → List TocNode
  | .mk _ _ _ cs => cs

/-- The heap of nested-heading objects built by `nestHeadings`' loop. -/
structure NestGraph where
  entries : List SectionRecord
  childIdx : List (List Nat)
  roots : List Nat
  parentsMap : List (Nat × Nat)
deriving Repr

/-- `Map.prototype.get` on the depth-indexed `parents` map (the most
recent `set` for a depth wins). -/
def lookupDepth : List (Nat × Nat) → Nat → Option Nat
  | [], _ => none
  | (d, i) :: rest, q => if d = q then some i else lookupDepth rest q

/-- The parent search `for (let d = heading.depth - 1; d >= 1; d--)`,
called with the loop's starting value: the registrant of the greatest
depth `≤ start` (and `≥ 1`) present in the map, if any. -/
def findParentFrom (parents : List (Nat × Nat)) : Nat → Option Nat
  | 0 => none
  | Nat.succ k =>
    match lookupDepth parents (Nat.succ k) with
    | some i => some i
    | none => findParentFrom parents k

/-- Replace the element at an index of a list (no-op when out of range). -/
def updateAt {α : Type} : List α → Nat → (α → α) → List α
  | [], _, _ => []
  | a :: l, 0, f => f a :: l
  | a :: l, Nat.succ k, f => a :: updateAt l k f

/-- One iteration of the `for (const heading of filteredHeadings)` loop:
create the node, register it under its depth (before the parent search, as
in the source — the search only consults strictly smaller depths), then
attach it to the found parent or to the root list. -/
def nestStep (st : NestGraph) (r : SectionRecord) : NestGraph :=
  let i := st.entries.length
  let pm := (r.depth, i) :: st.parentsMap
  let cI := st.childIdx ++ [[]]
  match findParentFrom pm (r.depth - 1) with
  | some p =>
    { entries := st.entries ++ [r],
      childIdx := updateAt cI p (fun c => c ++ [i]),
      roots := st.roots,
      parentsMap := pm }
  | none =>
    { entries := st.entries ++ [r],
      childIdx := cI,
      roots := st.roots ++ [i],
      parentsMap := pm }

/-- The whole loop. -/
def nestLoop : NestGraph → List SectionRecord → NestGraph
  | st, [] => st
  | st, r :: rest => nestLoop (nestStep st r) rest

/-- Materialize the object graph from one node index.  In every graph the
loop builds, a child's index is strictly greater than its parent's and
less than the number of entries; the filter makes this explicit so that
materialization is total (on reachable graphs it drops nothing). -/
def materializeNode (entries : List SectionRecord) (childIdx : List (List Nat)) (i : Nat) :
    TocNode :=
  let r := entries.getD i ⟨0, "", ""⟩
  let kids := (childIdx.getD i []).filter (fun j => decide (i < j ∧ j < entries.length))
  .mk r.depth r.title r.id
    (kids.attach.map (fun jh => materializeNode entries childIdx jh.1))
termination_by entries.length - i
decreasing_by
  have hj := jh.2
  simp only [kids, List.mem_filter, decide_eq_true_eq] at hj
  omega

/-- `nestHeadings` from `remark-section-transform.mjs`.  The argument is
optional to reflect the `!flatHeadings?.length` guard; thrown `Error`s are
modelled with `Except.error`. -/
def nestHeadings : Option (List SectionRecord) → Except String (List TocNode)
  | none => .ok []
  | some flatHeadings =>
    if flatHeadings.length = 0 then .ok []
    else
      let depth1Headings := flatHeadings.filter (fun h => decide (h.depth = 1))
      if depth1Headings.length = 0 then .error "No heading of depth 1 found"
      else if depth1Headings.length > 1 then
        .error ("Found " ++ toString depth1Headings.length ++
          " headings of depth 1, expected exactly 1")
      else
        let filteredHeadings := flatHeadings.filter (fun h => !decide (h.depth = 1))
        let g := nestLoop ⟨[], [], [], []⟩ filteredHeadings
        .ok (g.roots.map (materializeNode g.entries g.childIdx))

/-! ## Observations on document trees

Document-order (preorder) views of a tree, used to state the claims. -/

/-- The heading nodes of a forest in document order, as `(depth, text)`
pairs where `text` is the trimmed extracted heading text. -/
def headingsIn : List Node → List (Nat × String)
  | [] => []
  | .heading d hc :: rest => (d, jsTrimEnd (extractTextFromHeading hc)) :: headingsIn rest
  | .container cs :: rest => headingsIn cs ++ headingsIn rest
  | .mdxJsxFlowElement _ _ _ cs :: rest => headingsIn cs ++ headingsIn rest
  | _ :: rest => headingsIn rest
termination_by l => sizeOf l
decreasing_by
  all_goals simp_all
  all_goals omega

/-- The structured block nodes (`mdxJsxFlowElement`) of a forest in
document order, as `(name, title, id)` triples. -/
def blocksIn : List Node → List (String × String × String)
  | [] => []
  | .mdxJsxFlowElement nm t i cs :: rest => (nm, t, i) :: (blocksIn cs ++ blocksIn rest)
  | .container cs :: rest => blocksIn cs ++ blocksIn rest
  | _ :: rest => blocksIn rest
termination_by l => sizeOf l
decreasing_by
  all_goals simp_all
  all_goals omega

/-- No `mdxJsxFlowElement` occurs anywhere in the forest. -/
def noMdx : List Node → Bool
  | [] => true
  | .mdxJsxFlowElement _ _ _ _ :: _ => false
  | .container cs :: rest => noMdx cs && noMdx rest
  | _ :: rest => noMdx rest
termination_by l => sizeOf l
decreasing_by
  all_goals simp_all
  all_goals omega

/-- No heading node occurs anywhere in the forest. -/
def noHeadings : List Node → Bool
  | [] => true
  | .heading _ _ :: _ => false
  | .container cs :: rest => noHeadings cs && noHeadings rest
  | .mdxJsxFlowElement _ _ _ cs :: rest => noHeadings cs && noHeadings rest
  | _ :: rest => noHeadings rest
termination_by l => sizeOf l
decreasing_by
  all_goals simp_all
  all_goals omega

/-- Every heading of the forest has depth in `[1,4]` (the traversal
test accepts all of them). -/
def allDepthsOk : List Node → Bool
  | [] => true
  | .heading d _ :: rest => decide (1 ≤ d ∧ d ≤ 4) && allDepthsOk rest
  | .container cs :: rest => allDepthsOk cs && allDepthsOk rest
  | .mdxJsxFlowElement _ _ _ cs :: rest => allDepthsOk cs && allDepthsOk rest
  | _ :: rest => allDepthsOk rest
termination_by l => sizeOf l
decreasing_by
  all_goals simp_all
  all_goals omega

/-- No heading node is buried inside content that a sectionized heading
absorbs: for every heading the traversal sectionizes, the non-boundary
siblings it absorbs contain no heading nodes anywhere inside them. -/
def spanSafe : List Node → Bool
  | [] => true
  | .heading d _ :: rest =>
    if 1 ≤ d ∧ d ≤ 4 then
      noHeadings (rest.takeWhile (fun m => !isEnd m)) &&
      spanSafe (rest.dropWhile (fun m => !isEnd m))
    else spanSafe rest
  | .container cs :: rest => spanSafe cs && spanSafe rest
  | .mdxJsxFlowElement _ _ _ cs :: rest => spanSafe cs && spanSafe rest
  | _ :: rest => spanSafe rest
termination_by l => sizeOf l
decreasing_by
  all_goals simp_all
  all_goals try omega
  · have hdw : ∀ (p : Node → Bool) (l : List Node),
        sizeOf (List.dropWhile p l) ≤ sizeOf l := by
      intro p l
      induction l with
      | nil => simp [List.dropWhile]
      | cons a l ih =>
        simp only [List.dropWhile]
        cases p a
        · simp
        · simp
          omega
    have := hdw (fun m => !isEnd m) rest
    omega

/-- The `(name, title, id)` triple of the block node the sectionizer
produces for a heading observed as a `(depth, text)` pair. -/
def headingSig (h : Nat × String) : String × String × String :=
  ((componentMap h.1).getD "", (parseTextWithId h.2).title, (parseTextWithId h.2).id)

/-! ## Declarative nesting rule (from the specification's words)

The specification describes the nester's parent rule declaratively:
processed in input order, a record's parent is the most-recently-created
node at the greatest depth strictly less than the record's own depth, if
any such node has been registered (registration overwrites the tracking
for the node's own depth and leaves deeper depths in place); otherwise the
record becomes a new top-level root.  The following definitions follow
those words: the parent index of record `i` is the index `j < i` with
`depth j < depth i` that maximizes the depth and, among those of maximal
depth, is the most recent. -/

/-- The fold behind `specParentIdx`, generalized to a prefix of the
candidate indices: the best candidate among `j < m` — a candidate is a
`j` with `ds j < ds i`, and a later or deeper candidate beats the
current best (greatest depth first, most recent on ties). -/
def bestUpTo (ds : List Nat) (i m : Nat) : Option Nat :=
  (List.range m).foldl (fun best j =>
    if ds.getD j 0 < ds.getD i 0 then
      match best with
      | none => some j
      | some b => if ds.getD b 0 ≤ ds.getD j 0 then some j else some b
    else best) none

/-- Modelled from the spec: the parent index of record `i` in the
depth list `ds` — the candidate `j < i` with `ds j < ds i` of greatest
depth, most recent first on ties; `none` when no candidate exists. -/
def specParentIdx (ds : List Nat) (i : Nat) : Option Nat :=
  bestUpTo ds i i

/-- Modelled from the spec: children of node `i` are the records whose
parent is `i`, in input order. -/
def specChildTable (ds : List Nat) : List (List Nat) :=
  (List.range ds.length).map (fun i =>
    (List.range ds.length).filter (fun j => decide (specParentIdx ds j = some i)))

/-- Modelled from the spec: the top-level roots are the records with no
parent, in input order. -/
def specRoots (ds : List Nat) : List Nat :=
  (List.range ds.length).filter (fun j => decide (specParentIdx ds j = none))

/-- Modelled from the spec: the expected nested ToC — the depth-1 record
is excluded, every other record hangs under its declarative parent. -/
def specNest (recs : List SectionRecord) : List TocNode :=
  let f := recs.filter (fun r => !decide (r.depth = 1))
  let ds := f.map (fun r => r.depth)
  (specRoots ds).map (materializeNode f (specChildTable ds))

/-- The most recent index before `k` whose depth is exactly `d` (the
content of the nester's `parents` map for key `d` after `k` records). -/
def latestAt (ds : List Nat) (k : Nat) (d : Nat) : Option Nat :=
  (List.range k).foldl (fun acc j => if ds.getD j 0 = d then some j else acc) none

/-- The downward depth scan of the nester's parent search, expressed on
`latestAt`: the most recent index registered at the greatest depth in
`[1, m]`. -/
def scanSpec (ds : List Nat) (k : Nat) : Nat → Option Nat
  | 0 => none
  | Nat.succ m =>
    match latestAt ds k (Nat.succ m) with
    | some j => some j
    | none => scanSpec ds k m

/-- The nester loop invariant: after `k` records the graph is exactly
the declarative picture of the first `k` records — the entries are the
records in creation order, every node's children are precisely the later
records whose declarative parent it is, the roots are precisely the
parentless records, and the `parents` map holds the most recent record
per depth. -/
structure NestInv (f : List SectionRecord) (k : Nat) (st : NestGraph) : Prop where
  entries : st.entries = f.take k
  childLen : st.childIdx.length = k
  child : ∀ i, st.childIdx.getD i [] =
    (List.range k).filter
      (fun j => decide (specParentIdx (f.map (fun r => r.depth)) j = some i))
  roots : st.roots = (List.range k).filter
    (fun j => decide (specParentIdx (f.map (fun r => r.depth)) j = none))
  parents : ∀ d, lookupDepth st.parentsMap d = latestAt (f.map (fun r => r.depth)) k d

/-! ## The transform entry point (`remarkSectionTransform`) -/

/-- The `file.data.astro.frontmatter` object: its `toc` field and every
other field an earlier pass may have put there. -/
structure Frontmatter where
  toc : Option (List TocNode)
  otherFields : List (String × String)
deriving Repr

/-- The `file.data.astro` object. -/
structure AstroData where
  frontmatter : Option Frontmatter
  otherFields : List (String × String)
deriving Repr

/-- The per-document metadata carrier `file.data`. -/
structure FileData where
  astro : Option AstroData
  otherData : List (String × String)
deriving Repr

/-- `remarkSectionTransform`'s returned transformer applied to a document:
the argument is the ordered child list of the mdast `root` node (the root
itself has type `root`, so the visit test never matches it) together with
the metadata carrier.  Ensures `file.data.astro` and
`file.data.astro.frontmatter` exist (initializing them to empty objects
only when absent), runs the traversal, nests the collected records and
stores the result in `frontmatter.toc`.  Returns the mutated children,
the mutated metadata carrier and the printed warnings. -/
def remarkSectionTransform (rootChildren : List Node) (file : FileData) :
    Except String (List Node × FileData × List String) :=
  let astro := file.astro.getD { frontmatter := none, otherFields := [] }
  let frontmatter := astro.frontmatter.getD { toc := none, otherFields := [] }
  match transformList rootChildren with
  | .error e => .error e
  | .ok (children', toc, warnings) =>
    match nestHeadings (some toc) with
    | .error e => .error e
    | .ok nested =>
      .ok (children',
           { file with
             astro := some { astro with
               frontmatter := some { frontmatter with toc := some nested } } },
           warnings)

/-- Does a computation modelled with `Except` succeed? -/
def isExceptOk {ε α : Type} : Except ε α → Bool
  | .ok _ => true
  | .error _ => false

/-- The warning channel invariant: on success the printed warnings are
exactly one `depthOneWarning` per depth-1 record pushed, in order. -/
def warnSpec : Except String (List Node × List SectionRecord × List String) → Prop
  | .ok (_, recs, warns) =>
    warns = (recs.filter (fun r => decide (r.depth = 1))).map
      (fun r => depthOneWarning r.title r.id)
  | .error _ => True

/-! # Claims -/

/-! ## Regex soundness and completeness for the Text/ID parser -/

/-- The decomposition recognized by `/^(.+?)\s*\(#([^)]+)\)$/`: title
text (nonempty, no line terminators), optional whitespace, then a
parenthesized `(#literal-id)` suffix at the very end, the literal being
nonempty and free of `)`. -/
def explicitIdShape (cs t w idc : List Char) : Prop :=
  cs = t ++ w ++ '(' :: '#' :: (idc ++ [')']) ∧
  t ≠ [] ∧ (∀ c ∈ t, dotOk c = true) ∧ (∀ c ∈ w, jsWhitespace c = true) ∧
  idc ≠ [] ∧ (∀ c ∈ idc, ¬ c = ')')

instance (cs t w idc : List Char) : Decidable (explicitIdShape cs t w idc) := by
  unfold explicitIdShape
  infer_instance

theorem takeWhile_append_singleton {p : Char → Bool} (xs : List Char) (y : Char)
    (hxs : ∀ c ∈ xs, p c = true) (hy : p y = false) :
    (xs ++ [y]).takeWhile p = xs := by
  induction xs with
  | nil => simp [List.takeWhile_cons, hy]
  | cons a l ih =>
    have ha := hxs a (by simp)
    have ihl := ih (fun c hc => hxs c (by simp [hc]))
    simp [List.takeWhile_cons, ha, ihl]

theorem dropWhile_append_singleton {p : Char → Bool} (xs : List Char) (y : Char)
    (hxs : ∀ c ∈ xs, p c = true) (hy : p y = false) :
    (xs ++ [y]).dropWhile p = [y] := by
  induction xs with
  | nil => simp [List.dropWhile_cons, hy]
  | cons a l ih =>
    have ha := hxs a (by simp)
    have ihl := ih (fun c hc => hxs c (by simp [hc]))
    simp [List.dropWhile_cons, ha, ihl]

theorem idPart_eq_some (idc : List Char) (h1 : idc ≠ []) (h2 : ∀ c ∈ idc, ¬ c = ')') :
    idPart (idc ++ [')']) = some idc := by
  have hp : ∀ c ∈ idc, (fun c => !(c = ')' : Bool)) c = true := by
    intro c hc
    simp [h2 c hc]
  unfold idPart
  rw [takeWhile_append_singleton idc ')' hp (by simp),
      dropWhile_append_singleton idc ')' hp (by simp)]
  have hlen : idc.length ≥ 1 := by
    cases idc with
    | nil => exact absurd rfl h1
    | cons a l => simp
  simp [hlen]

theorem idPart_sound (cs idc : List Char) (h : idPart cs = some idc) :
    cs = idc ++ [')'] ∧ idc ≠ [] ∧ (∀ c ∈ idc, ¬ c = ')') := by
  unfold idPart at h
  by_cases hcond : (cs.takeWhile (fun c => !(c = ')' : Bool))).length ≥ 1 ∧
      cs.dropWhile (fun c => !(c = ')' : Bool)) = [')']
  · rw [if_pos hcond] at h
    simp only [Option.some.injEq] at h
    subst h
    obtain ⟨hlen, hback⟩ := hcond
    refine ⟨?_, ?_, ?_⟩
    · conv_lhs => rw [← List.takeWhile_append_dropWhile
        (p := fun c => !(c = ')' : Bool)) (l := cs)]
      rw [hback]
    · intro hnil
      rw [hnil] at hlen
      simp at hlen
    · intro c hc
      have := List.mem_takeWhile_imp hc
      simpa using this
  · rw [if_neg hcond] at h
    cases h

theorem matchSuffix_complete (w idc : List Char) (hw : ∀ c ∈ w, jsWhitespace c = true)
    (h1 : idc ≠ []) (h2 : ∀ c ∈ idc, ¬ c = ')') :
    matchSuffix (w ++ '(' :: '#' :: (idc ++ [')'])) = some idc := by
  induction w with
  | nil =>
    rw [List.nil_append, matchSuffix.eq_def]
    dsimp only
    rw [if_neg (by decide), if_pos rfl]
    exact idPart_eq_some idc h1 h2
  | cons c w ih =>
    rw [List.cons_append, matchSuffix.eq_def]
    dsimp only
    rw [if_pos (hw c (by simp))]
    exact ih (fun c hc => hw c (by simp [hc]))

theorem matchSuffix_sound (cs : List Char) :
    ∀ idc, matchSuffix cs = some idc →
      ∃ w, cs = w ++ '(' :: '#' :: (idc ++ [')']) ∧ (∀ c ∈ w, jsWhitespace c = true) ∧
        idc ≠ [] ∧ (∀ c ∈ idc, ¬ c = ')') := by
  induction cs with
  | nil => intro idc h; rw [matchSuffix.eq_def] at h; cases h
  | cons c rest ih =>
    intro idc h
    rw [matchSuffix.eq_def] at h
    dsimp only at h
    by_cases hws : jsWhitespace c
    · rw [if_pos hws] at h
      obtain ⟨w, hcs, hw, h1, h2⟩ := ih idc h
      refine ⟨c :: w, by simp [hcs], ?_, h1, h2⟩
      intro d hd
      rcases List.mem_cons.mp hd with hh | hh
      · subst hh; exact hws
      · exact hw d hh
    · rw [if_neg hws] at h
      by_cases hc : c = '('
      · rw [if_pos hc] at h
        subst hc
        cases rest with
        | nil => cases h
        | cons c2 rest2 =>
          dsimp only at h
          by_cases h2 : c2 = '#'
          · subst h2
            rw [if_pos rfl] at h
            obtain ⟨heq, h1, hfree⟩ := idPart_sound rest2 idc h
            exact ⟨[], by simp [heq], by simp, h1, hfree⟩
          · rw [if_neg h2] at h
            cases h
      · rw [if_neg hc] at h
        cases h

theorem tryMatch_sound (cs : List Char) :
    ∀ g g2 idc, tryMatch g cs = some (g2, idc) →
      ∃ t, g2 = g ++ t ∧ t ≠ [] ∧ (∀ c ∈ t, dotOk c = true) ∧
        ∃ w, cs = t ++ w ++ '(' :: '#' :: (idc ++ [')']) ∧
          (∀ c ∈ w, jsWhitespace c = true) ∧ idc ≠ [] ∧ (∀ c ∈ idc, ¬ c = ')') := by
  induction cs with
  | nil => intro g g2 idc h; rw [tryMatch.eq_def] at h; cases h
  | cons c rest ih =>
    intro g g2 idc h
    rw [tryMatch.eq_def] at h
    dsimp only at h
    by_cases hdot : dotOk c
    · rw [if_pos hdot] at h
      cases hms : matchSuffix rest with
      | some idc2 =>
        rw [hms] at h
        simp only [Option.some.injEq, Prod.mk.injEq] at h
        obtain ⟨hg, hidc⟩ := h
        subst hidc
        obtain ⟨w, hcs, hw, h1, h2⟩ := matchSuffix_sound rest idc2 hms
        exact ⟨[c], hg.symm, by simp, by simp [hdot],
               w, by simp [hcs], hw, h1, h2⟩
      | none =>
        rw [hms] at h
        obtain ⟨t, hg, htne, htdot, w, hcs, hw, h1, h2⟩ := ih (g ++ [c]) g2 idc h
        refine ⟨c :: t, by simp [hg], by simp, ?_, w, by simp [hcs], hw, h1, h2⟩
        intro d hd
        rcases List.mem_cons.mp hd with hh | hh
        · subst hh; exact hdot
        · exact htdot d hh
    · rw [if_neg hdot] at h
      cases h

theorem tryMatch_complete (t : List Char) :
    ∀ g w idc, t ≠ [] → (∀ c ∈ t, dotOk c = true) → (∀ c ∈ w, jsWhitespace c = true) →
      idc ≠ [] → (∀ c ∈ idc, ¬ c = ')') →
      ∃ out, tryMatch g (t ++ w ++ '(' :: '#' :: (idc ++ [')'])) = some out := by
  induction t with
  | nil => intro g w idc htne; exact absurd rfl htne
  | cons c t ih =>
    intro g w idc _ htdot hw h1 h2
    rw [List.cons_append, List.cons_append, tryMatch.eq_def]
    dsimp only
    rw [if_pos (htdot c (by simp))]
    cases hms : matchSuffix (t ++ w ++ '(' :: '#' :: (idc ++ [')'])) with
    | some idc2 => exact ⟨_, rfl⟩
    | none =>
      cases t with
      | nil =>
        exfalso
        rw [List.nil_append] at hms
        rw [matchSuffix_complete w idc hw h1 h2] at hms
        cases hms
      | cons c2 t2 =>
        exact ih (g ++ [c]) w idc (by simp) (fun d hd => htdot d (by simp [hd])) hw h1 h2

/-- A string matched by the explicit-id pattern ends in `)`. -/
theorem explicitIdShape_last (cs t w idc : List Char)
    (h : explicitIdShape cs t w idc) : cs.getLast? = some ')' := by
  obtain ⟨hcs, -, -, -, -, -⟩ := h
  rw [hcs]
  have : t ++ w ++ '(' :: '#' :: (idc ++ [')']) =
      (t ++ w ++ '(' :: '#' :: idc) ++ [')'] := by
    simp
  rw [this, List.getLast?_concat]

/-- **C4.** The Text/ID parser: when the input decomposes as title text,
optional whitespace and a parenthesized `(#literal-id)` suffix at the very
end, the result is the text before (one such) suffix, trimmed, paired with
the literal between `#` and `)`; for every input with no such
decomposition the result is the full input unchanged together with its
kebab-case slug.  In particular `"Overview (#custom-id)"` yields
`{title := "Overview", id := "custom-id"}` and `"My Great Section"`
yields `{title := "My Great Section", id := "my-great-section"}`. -/
theorem C4_text_id_parsing :
    (∀ (s : String) (t w idc : List Char), explicitIdShape s.data t w idc →
      ∃ t2 idc2, (∃ w2, explicitIdShape s.data t2 w2 idc2) ∧
        parseTextWithId s = ⟨jsTrim (String.mk t2), String.mk idc2⟩) ∧
    (∀ s : String, (∀ t w idc, ¬ explicitIdShape s.data t w idc) →
      parseTextWithId s = ⟨s, kebabCase s⟩) ∧
    parseTextWithId "Overview (#custom-id)" = ⟨"Overview", "custom-id"⟩ ∧
    parseTextWithId "My Great Section" = ⟨"My Great Section", "my-great-section"⟩ := by
  refine ⟨?_, ?_, by decide, by decide⟩
  · intro s t w idc hshape
    obtain ⟨hcs, htne, htdot, hw, h1, h2⟩ := hshape
    obtain ⟨out, hout⟩ := by
      have := tryMatch_complete t [] w idc htne htdot hw h1 h2
      rw [← hcs] at this
      exact this
    obtain ⟨g2, idc2⟩ := out
    obtain ⟨t2, hg2, ht2ne, ht2dot, w2, hcs2, hw2, h12, h22⟩ :=
      tryMatch_sound s.data [] g2 idc2 hout
    rw [List.nil_append] at hg2
    subst hg2
    refine ⟨g2, idc2, ⟨w2, hcs2, ht2ne, ht2dot, hw2, h12, h22⟩, ?_⟩
    unfold parseTextWithId regexMatch
    rw [hout]
  · intro s hns
    unfold parseTextWithId regexMatch
    cases hout : tryMatch [] s.data with
    | none => rfl
    | some out =>
      exfalso
      obtain ⟨g2, idc2⟩ := out
      obtain ⟨t2, hg2, ht2ne, ht2dot, w2, hcs2, hw2, h12, h22⟩ :=
        tryMatch_sound s.data [] g2 idc2 hout
      exact hns t2 w2 idc2 ⟨hcs2, ht2ne, ht2dot, hw2, h12, h22⟩

/-- Witness for C4: the explicit-id branch at `"Overview (#custom-id)"`
(with its concrete decomposition) and the slug branch at
`"My Great Section"` (no decomposition exists since the string does not
end in `)`). -/
theorem C4_text_id_parsing_witness :
    (∃ t2 idc2, (∃ w2, explicitIdShape ("Overview (#custom-id)" : String).data t2 w2 idc2) ∧
      parseTextWithId "Overview (#custom-id)" = ⟨jsTrim (String.mk t2), String.mk idc2⟩) ∧
    parseTextWithId "My Great Section" = ⟨"My Great Section", kebabCase "My Great Section"⟩ := by
  constructor
  · exact C4_text_id_parsing.1 "Overview (#custom-id)"
      ("Overview").data (" ").data ("custom-id").data (by decide)
  · refine C4_text_id_parsing.2.1 "My Great Section" ?_
    intro t w idc h
    have := explicitIdShape_last _ t w idc h
    revert this
    decide

/-- **C9 (counterexample).** The claim fails as stated: the input
`"A (#x(#)"` ends in the suffix `(#)` yet the parser does take the
explicit-id branch (the earlier `(#` provides a nonempty id literal
`x(#`), so the returned title is not the full input. -/
theorem C9_counterexample :
    ("A (#x(#)" : String).data = ("A (#x" : String).data ++ ['(', '#', ')'] ∧
    parseTextWithId "A (#x(#)" = ⟨"A", "x(#"⟩ ∧
    (parseTextWithId "A (#x(#)").title ≠ "A (#x(#)" := by
  refine ⟨by decide, by decide, by decide⟩

/-- **C9 (amended).** For every input string ending in the suffix `(#)`
in which the marker substring `(#` occurs nowhere except at that final
position, the parser does not take the explicit-id branch (the pattern
needs a nonempty literal between `#` and `)`): it returns the full input
unchanged as title and the kebab-case slug of the full input as id. -/
theorem C9_empty_id_marker (s : String) (pre : List Char)
    (_hends : s.data = pre ++ ['(', '#', ')'])
    (honly : ∀ q < s.data.length, (s.data.drop q).take 2 = ['(', '#'] →
      q = s.data.length - 3) :
    parseTextWithId s = ⟨s, kebabCase s⟩ := by
  unfold parseTextWithId regexMatch
  cases hout : tryMatch [] s.data with
  | none => rfl
  | some out =>
    exfalso
    obtain ⟨g2, idc2⟩ := out
    obtain ⟨t2, hg2, ht2ne, ht2dot, w2, hcs2, hw2, h12, h22⟩ :=
      tryMatch_sound s.data [] g2 idc2 hout
    have hdropq : (s.data.drop (t2 ++ w2).length).take 2 = ['(', '#'] := by
      rw [hcs2]
      have : t2 ++ w2 ++ '(' :: '#' :: (idc2 ++ [')']) =
          (t2 ++ w2) ++ '(' :: '#' :: (idc2 ++ [')']) := by simp
      rw [this, List.drop_left]
      rfl
    have hlen : s.data.length = (t2 ++ w2).length + 3 + idc2.length := by
      rw [hcs2]
      simp
      omega
    have hqlt : (t2 ++ w2).length < s.data.length := by omega
    have hq := honly (t2 ++ w2).length hqlt hdropq
    have : idc2.length = 0 := by omega
    rw [List.length_eq_zero] at this
    exact h12 this

/-- Witness for the amended C9 at `"Overview (#)"`: the only occurrence
of `(#` is the final marker, so the slug branch is taken. -/
theorem C9_empty_id_marker_witness :
    parseTextWithId "Overview (#)" = ⟨"Overview (#)", kebabCase "Overview (#)"⟩ :=
  C9_empty_id_marker "Overview (#)" ("Overview " : String).data (by decide) (by decide)

theorem exists_ok_of_isExceptOk {ε α : Type} {e : Except ε α}
    (h : isExceptOk e = true) : ∃ out, e = .ok out := by
  cases e with
  | ok v => exact ⟨v, rfl⟩
  | error _ => simp [isExceptOk] at h

/-- The traversal never throws: the only `throw` site is
`getComponentNameForDepth`, which the visit test protects. -/
theorem transformList_never_fails (l : List Node) :
    isExceptOk (transformList l) = true := by
  induction l using transformList.induct
  case case1 => rw [transformList]; rfl
  case case2 depth hc rest h e hx =>
    rcases h with ⟨h1, h4⟩
    interval_cases depth <;>
      simp [getComponentNameForDepth, componentMap] at hx
  case case3 depth hc rest h cn hcn e hx ih =>
    rw [hx] at ih; simp [isExceptOk] at ih
  case case4 depth hc rest h cn hcn out toc warns hx ih =>
    rw [transformList, if_pos h, hcn, hx]; rfl
  case case5 depth hc rest h e hx ih =>
    rw [hx] at ih; simp [isExceptOk] at ih
  case case6 depth hc rest h out toc warns hx ih =>
    rw [transformList, if_neg h, hx]; rfl
  case case7 cs rest e hx ih =>
    rw [hx] at ih; simp [isExceptOk] at ih
  case case8 cs rest o t w hcs e hx ih2 ih1 =>
    rw [hx] at ih1; simp [isExceptOk] at ih1
  case case9 cs rest o1 t1 w1 hcs o t w hx ih2 ih1 =>
    rw [transformList, hcs, hx]; rfl
  case case10 nm tt ii cs rest e hx ih =>
    rw [hx] at ih; simp [isExceptOk] at ih
  case case11 nm tt ii cs rest o1 t1 w1 hcs e hx ih2 ih1 =>
    rw [hx] at ih1; simp [isExceptOk] at ih1
  case case12 nm tt ii cs rest o1 t1 w1 hcs o t w hx ih2 ih1 =>
    rw [transformList, hcs, hx]; rfl
  case case13 n rest hne1 hne2 hne3 e hx ih =>
    rw [hx] at ih; simp [isExceptOk] at ih
  case case14 n rest hne1 hne2 hne3 o t w hx ih =>
    cases n with
    | heading d hc => exact (hne1 d hc rfl).elim
    | container cs => exact (hne2 cs rfl).elim
    | mdxJsxFlowElement a b c d => exact (hne3 a b c d rfl).elim
    | exportNode => rw [transformList, hx] <;> simp [isExceptOk]
    | paragraph pc => rw [transformList, hx] <;> simp [isExceptOk]
    | leaf => rw [transformList, hx] <;> simp [isExceptOk]

/-- **C6.** For every heading the traversal test offers (depth between 1
and 4), the depth-to-component-name mapping succeeds with the documented
name (1→Section, 2→SubSection, 3→SubSubSection, 4→SubSubSubSection) and
the fatal internal-error branch is unreachable: an error is only produced
for depths the test never offers, and consequently the whole traversal
never fails, on any input forest. -/
theorem C6_component_mapping_safety :
    (getComponentNameForDepth 1 = .ok "Section" ∧
     getComponentNameForDepth 2 = .ok "SubSection" ∧
     getComponentNameForDepth 3 = .ok "SubSubSection" ∧
     getComponentNameForDepth 4 = .ok "SubSubSubSection") ∧
    (∀ d, 1 ≤ d → d ≤ 4 → ∃ nm, getComponentNameForDepth d = .ok nm) ∧
    (∀ d e, getComponentNameForDepth d = .error e → ¬(1 ≤ d ∧ d ≤ 4)) ∧
    (∀ l : List Node, ∃ out, transformList l = .ok out) := by
  refine ⟨⟨rfl, rfl, rfl, rfl⟩, ?_, ?_, ?_⟩
  · intro d h1 h4
    interval_cases d <;> exact ⟨_, rfl⟩
  · intro d e he hcontra
    rcases hcontra with ⟨h1, h4⟩
    interval_cases d <;> simp [getComponentNameForDepth, componentMap] at he
  · intro l
    exact exists_ok_of_isExceptOk (transformList_never_fails l)

/-- Witness for C6 at concrete inputs: depth 3 is mapped, depth 7 is not
offered by the test, and a concrete forest (with an unmatched depth-6
heading) transforms without error. -/
theorem C6_component_mapping_safety_witness :
    (∃ nm, getComponentNameForDepth 3 = .ok nm) ∧
    ¬(1 ≤ 7 ∧ 7 ≤ 4) ∧
    (∃ out, transformList [Node.heading 6 [], Node.exportNode] = .ok out) :=
  ⟨C6_component_mapping_safety.2.1 3 (by decide) (by decide),
   C6_component_mapping_safety.2.2.1 7
     ("BUG: Unexpected heading depth 7 encountered in remark-section-transform plugin. " ++
      "This should never happen since the plugin only processes depths 1-4. " ++
      "Please report this as a bug.") rfl,
   C6_component_mapping_safety.2.2.2 [Node.heading 6 [], Node.exportNode]⟩

theorem transformList_warnSpec (l : List Node) : warnSpec (transformList l) := by
  induction l using transformList.induct
  case case1 => rw [transformList]; simp [warnSpec]
  case case2 depth hc rest h e hx =>
    rcases h with ⟨h1, h4⟩
    interval_cases depth <;>
      simp [getComponentNameForDepth, componentMap] at hx
  case case3 depth hc rest h cn hcn e hx ih =>
    rw [transformList, if_pos h, hcn, hx]; simp [warnSpec]
  case case4 depth hc rest h cn hcn out toc warns hx ih =>
    rw [transformList, if_pos h, hcn, hx]
    rw [hx] at ih
    simp only [warnSpec] at ih ⊢
    by_cases hd : depth = 1 <;> simp [List.filter_cons, hd, ih]
  case case5 depth hc rest h e hx ih =>
    rw [transformList, if_neg h, hx]; simp [warnSpec]
  case case6 depth hc rest h out toc warns hx ih =>
    rw [transformList, if_neg h, hx]
    rw [hx] at ih
    exact ih
  case case7 cs rest e hx ih =>
    rw [transformList, hx]; simp [warnSpec]
  case case8 cs rest o t w hcs e hx ih2 ih1 =>
    rw [transformList, hcs, hx]; simp [warnSpec]
  case case9 cs rest o1 t1 w1 hcs o t w hx ih2 ih1 =>
    rw [transformList, hcs, hx]
    rw [hcs] at ih2
    rw [hx] at ih1
    simp only [warnSpec] at ih2 ih1 ⊢
    simp [List.filter_append, ih2, ih1]
  case case10 nm tt ii cs rest e hx ih =>
    rw [transformList, hx]; simp [warnSpec]
  case case11 nm tt ii cs rest o1 t1 w1 hcs e hx ih2 ih1 =>
    rw [transformList, hcs, hx]; simp [warnSpec]
  case case12 nm tt ii cs rest o1 t1 w1 hcs o t w hx ih2 ih1 =>
    rw [transformList, hcs, hx]
    rw [hcs] at ih2
    rw [hx] at ih1
    simp only [warnSpec] at ih2 ih1 ⊢
    simp [List.filter_append, ih2, ih1]
  case case13 n rest hne1 hne2 hne3 e hx ih =>
    cases n with
    | heading d hc => exact (hne1 d hc rfl).elim
    | container cs => exact (hne2 cs rfl).elim
    | mdxJsxFlowElement a b c d => exact (hne3 a b c d rfl).elim
    | exportNode => rw [transformList, hx] <;> simp [warnSpec]
    | paragraph pc => rw [transformList, hx] <;> simp [warnSpec]
    | leaf => rw [transformList, hx] <;> simp [warnSpec]
  case case14 n rest hne1 hne2 hne3 o t w hx ih =>
    rw [hx] at ih
    cases n with
    | heading d hc => exact (hne1 d hc rfl).elim
    | container cs => exact (hne2 cs rfl).elim
    | mdxJsxFlowElement a b c d => exact (hne3 a b c d rfl).elim
    | exportNode => rw [transformList, hx] <;> first | exact ih | simp
    | paragraph pc => rw [transformList, hx] <;> first | exact ih | simp
    | leaf => rw [transformList, hx] <;> first | exact ih | simp

/-- **C7.** On every successful run of the traversal, the warnings
printed to the diagnostics channel are exactly one per depth-1 record
processed (none for any other depth), in processing order, each naming
the parsed title and the parsed id that will be overridden. -/
theorem C7_warning_per_depth_one_heading (l out : List Node)
    (recs : List SectionRecord) (warns : List String)
    (h : transformList l = .ok (out, recs, warns)) :
    warns = (recs.filter (fun r => decide (r.depth = 1))).map
      (fun r => depthOneWarning r.title r.id) := by
  have hw := transformList_warnSpec l
  rw [h] at hw
  exact hw

/-- Witness for C7 on a concrete document with one depth-1 and one
depth-2 heading: exactly one warning, for the depth-1 heading. -/
theorem C7_warning_per_depth_one_heading_witness :
    [depthOneWarning "T" "t"] =
      (([⟨1, "T", "t"⟩, ⟨2, "S", "s"⟩] : List SectionRecord).filter
          (fun r => decide (r.depth = 1))).map
        (fun r => depthOneWarning r.title r.id) := by
  refine C7_warning_per_depth_one_heading
    [.heading 1 [.text "T"], .heading 2 [.text "S"]]
    [.mdxJsxFlowElement "Section" "T" "t" [], .mdxJsxFlowElement "SubSection" "S" "s" []]
    [⟨1, "T", "t"⟩, ⟨2, "S", "s"⟩] [depthOneWarning "T" "t"] ?_
  have h1 : parseTextWithId (jsTrimEnd (extractTextFromHeading [Inline.text "T"])) =
      ⟨"T", "t"⟩ := by decide
  have h2 : parseTextWithId (jsTrimEnd (extractTextFromHeading [Inline.text "S"])) =
      ⟨"S", "s"⟩ := by decide
  simp +decide [transformList, isEnd, h1, h2, getComponentNameForDepth, componentMap]

/-- **C8.** The transform entry point initializes the metadata container
only if absent, writes the nested ToC of the collected records into
`frontmatter.toc` (overwriting any previous `toc`), and leaves every
other pre-existing field — of `file.data`, of `astro` and of
`frontmatter` — unchanged. -/
theorem C8_metadata_frame (rootChildren : List Node) (file : FileData)
    (out : List Node) (file2 : FileData) (warns : List String)
    (h : remarkSectionTransform rootChildren file = .ok (out, file2, warns)) :
    ∃ recs toc,
      transformList rootChildren = .ok (out, recs, warns) ∧
      nestHeadings (some recs) = .ok toc ∧
      file2 = { astro := some
                  { frontmatter := some
                      { toc := some toc,
                        otherFields :=
                          ((file.astro.getD ⟨none, []⟩).frontmatter.getD ⟨none, []⟩).otherFields },
                    otherFields := (file.astro.getD ⟨none, []⟩).otherFields },
                otherData := file.otherData } := by
  unfold remarkSectionTransform at h
  cases htr : transformList rootChildren with
  | error e => rw [htr] at h; cases h
  | ok res =>
    obtain ⟨children', toc0, warnings0⟩ := res
    rw [htr] at h
    dsimp only at h
    cases hn : nestHeadings (some toc0) with
    | error e => rw [hn] at h; cases h
    | ok nested =>
      rw [hn] at h
      dsimp only at h
      injection h with h
      injection h with hout h
      injection h with hfile hwarns
      subst hout
      subst hwarns
      refine ⟨toc0, nested, rfl, hn, ?_⟩
      rw [← hfile]

/-- Witness for C8 on a concrete document and a concrete pre-populated
metadata carrier (with an existing `toc` that gets overwritten and other
fields at every level that are preserved). -/
theorem C8_metadata_frame_witness :
    ∃ recs toc,
      transformList [.heading 1 [.text "T"], .heading 2 [.text "S"]] =
        .ok ([.mdxJsxFlowElement "Section" "T" "t" [],
              .mdxJsxFlowElement "SubSection" "S" "s" []], recs, [depthOneWarning "T" "t"]) ∧
      nestHeadings (some recs) = .ok toc ∧
      ({ astro := some { frontmatter := some { toc := some [TocNode.mk 2 "S" "s" []],
                                               otherFields := [("fmk", "fmv")] },
                         otherFields := [("ak", "av")] },
         otherData := [("dk", "dv")] } : FileData) =
      { astro := some { frontmatter := some { toc := some toc,
                                              otherFields := [("fmk", "fmv")] },
                        otherFields := [("ak", "av")] },
        otherData := [("dk", "dv")] } := by
  refine C8_metadata_frame [.heading 1 [.text "T"], .heading 2 [.text "S"]]
    { astro := some { frontmatter := some { toc := some [], otherFields := [("fmk", "fmv")] },
                      otherFields := [("ak", "av")] },
      otherData := [("dk", "dv")] }
    [.mdxJsxFlowElement "Section" "T" "t" [], .mdxJsxFlowElement "SubSection" "S" "s" []]
    { astro := some { frontmatter := some { toc := some [TocNode.mk 2 "S" "s" []],
                                            otherFields := [("fmk", "fmv")] },
                      otherFields := [("ak", "av")] },
      otherData := [("dk", "dv")] }
    [depthOneWarning "T" "t"] ?_
  have h1 : parseTextWithId (jsTrimEnd (extractTextFromHeading [Inline.text "T"])) =
      ⟨"T", "t"⟩ := by decide
  have h2 : parseTextWithId (jsTrimEnd (extractTextFromHeading [Inline.text "S"])) =
      ⟨"S", "s"⟩ := by decide
  have htr : transformList [.heading 1 [.text "T"], .heading 2 [.text "S"]] =
      .ok ([.mdxJsxFlowElement "Section" "T" "t" [],
            .mdxJsxFlowElement "SubSection" "S" "s" []],
           [⟨1, "T", "t"⟩, ⟨2, "S", "s"⟩], [depthOneWarning "T" "t"]) := by
    simp +decide [transformList, isEnd, h1, h2, getComponentNameForDepth, componentMap]
  have hmat : materializeNode [⟨2, "S", "s"⟩] [[]] 0 = TocNode.mk 2 "S" "s" [] := by
    rw [materializeNode]
    simp
  have hnest : nestHeadings (some [⟨1, "T", "t"⟩, ⟨2, "S", "s"⟩]) =
      .ok [TocNode.mk 2 "S" "s" []] := by
    simp +decide [nestHeadings, nestLoop, nestStep, findParentFrom, lookupDepth, hmat]
  unfold remarkSectionTransform
  rw [htr]
  dsimp only
  rw [hnest]
  rfl

/-! ## Lemmas about the document-order observations -/

theorem componentMap_of_ok {d : Nat} {cn : String}
    (h : getComponentNameForDepth d = .ok cn) : componentMap d = some cn := by
  unfold getComponentNameForDepth at h
  cases hcm : componentMap d with
  | some nm => rw [hcm] at h; injection h with h; rw [h]
  | none => rw [hcm] at h; cases h

theorem headingsIn_append (a b : List Node) :
    headingsIn (a ++ b) = headingsIn a ++ headingsIn b := by
  induction a with
  | nil => simp [headingsIn]
  | cons n rest ih => cases n <;> simp [headingsIn, ih]

theorem blocksIn_append (a b : List Node) :
    blocksIn (a ++ b) = blocksIn a ++ blocksIn b := by
  induction a with
  | nil => simp [blocksIn]
  | cons n rest ih => cases n <;> simp [blocksIn, ih]

theorem noMdx_append (a b : List Node) :
    noMdx (a ++ b) = (noMdx a && noMdx b) := by
  induction a with
  | nil => simp [noMdx]
  | cons n rest ih => cases n <;> simp [noMdx, ih, Bool.and_assoc]

theorem allDepthsOk_append (a b : List Node) :
    allDepthsOk (a ++ b) = (allDepthsOk a && allDepthsOk b) := by
  induction a with
  | nil => simp [allDepthsOk]
  | cons n rest ih => cases n <;> simp [allDepthsOk, ih, Bool.and_assoc]

theorem headingsIn_eq_nil_of_noHeadings (l : List Node) (h : noHeadings l = true) :
    headingsIn l = [] := by
  induction l using noHeadings.induct <;> simp_all [noHeadings, headingsIn]

theorem blocksIn_eq_nil_of_noMdx (l : List Node) (h : noMdx l = true) :
    blocksIn l = [] := by
  induction l using noMdx.induct <;> simp_all [noMdx, blocksIn]

theorem transformList_blocks (l : List Node) :
    allDepthsOk l = true → noMdx l = true → spanSafe l = true →
    ∀ out recs warns, transformList l = .ok (out, recs, warns) →
      blocksIn out = (headingsIn l).map headingSig := by
  induction l using transformList.induct
  case case1 =>
    intro _ _ _ out recs warns heq
    rw [transformList] at heq
    injection heq with heq
    injection heq with hout heq
    subst hout
    simp [blocksIn, headingsIn]
  case case2 depth hc rest h e hx =>
    rcases h with ⟨h1, h4⟩
    intro _ _ _ out recs warns heq
    interval_cases depth <;>
      simp [getComponentNameForDepth, componentMap] at hx
  case case3 depth hc rest h cn hcn e hx ih =>
    intro _ _ _ out recs warns heq
    have := transformList_never_fails (rest.dropWhile (fun m => !isEnd m))
    rw [hx] at this
    simp [isExceptOk] at this
  case case4 depth hc rest h cn hcn outTail tocTail warnTail hx ih =>
    intro hd hm hs out recs warns heq
    rw [transformList, if_pos h, hcn, hx] at heq
    injection heq with heq
    injection heq with hout heq
    injection heq with hrecs hwarns
    subst hout
    have hdr : allDepthsOk rest = true := by
      rw [allDepthsOk] at hd
      exact (Bool.and_eq_true _ _ |>.mp hd).2
    have hmr : noMdx rest = true := by
      simpa [noMdx] using hm
    rw [spanSafe, if_pos h, Bool.and_eq_true] at hs
    obtain ⟨hspan, hrest'⟩ := hs
    have hsplit : rest = rest.takeWhile (fun m => !isEnd m) ++
        rest.dropWhile (fun m => !isEnd m) :=
      (List.takeWhile_append_dropWhile (p := fun m => !isEnd m) (l := rest)).symm
    have hmr2 : noMdx (rest.takeWhile (fun m => !isEnd m)) = true ∧
        noMdx (rest.dropWhile (fun m => !isEnd m)) = true := by
      rw [← Bool.and_eq_true, ← noMdx_append, ← hsplit]
      exact hmr
    have hdr2 : allDepthsOk (rest.dropWhile (fun m => !isEnd m)) = true := by
      have : allDepthsOk (rest.takeWhile (fun m => !isEnd m)) = true ∧
          allDepthsOk (rest.dropWhile (fun m => !isEnd m)) = true := by
        rw [← Bool.and_eq_true, ← allDepthsOk_append, ← hsplit]
        exact hdr
      exact this.2
    have ihv := ih hdr2 hmr2.2 hrest' outTail tocTail warnTail hx
    rw [headingsIn]
    conv_rhs => rw [hsplit]
    rw [headingsIn_append,
        headingsIn_eq_nil_of_noHeadings _ hspan, List.nil_append]
    rw [blocksIn]
    rw [blocksIn_eq_nil_of_noMdx _ hmr2.1, List.nil_append, ihv]
    rw [List.map_cons]
    rw [headingSig]
    rw [componentMap_of_ok hcn]
    rfl
  case case5 depth hc rest h e hx ih =>
    intro hd _ _ out recs warns heq
    rw [allDepthsOk] at hd
    exact absurd (of_decide_eq_true (Bool.and_eq_true _ _ |>.mp hd).1) h
  case case6 depth hc rest h outTail tocTail warnTail hx ih =>
    intro hd _ _ out recs warns heq
    rw [allDepthsOk] at hd
    exact absurd (of_decide_eq_true (Bool.and_eq_true _ _ |>.mp hd).1) h
  case case7 cs rest e hx ih =>
    intro _ _ _ out recs warns heq
    have := transformList_never_fails cs
    rw [hx] at this
    simp [isExceptOk] at this
  case case8 cs rest o t w hcs e hx ih2 ih1 =>
    intro _ _ _ out recs warns heq
    have := transformList_never_fails rest
    rw [hx] at this
    simp [isExceptOk] at this
  case case9 cs rest o1 t1 w1 hcs o t w hx ih2 ih1 =>
    intro hd hm hs out recs warns heq
    rw [transformList, hcs, hx] at heq
    injection heq with heq
    injection heq with hout heq
    injection heq with hrecs hwarns
    subst hout
    rw [allDepthsOk, Bool.and_eq_true] at hd
    rw [noMdx, Bool.and_eq_true] at hm
    rw [spanSafe, Bool.and_eq_true] at hs
    have ihv2 := ih2 hd.1 hm.1 hs.1 o1 t1 w1 hcs
    have ihv1 := ih1 hd.2 hm.2 hs.2 o t w hx
    rw [headingsIn, blocksIn, List.map_append, ihv2, ihv1]
  case case10 nm tt ii cs rest e hx ih =>
    intro _ hm _ out recs warns heq
    rw [noMdx] at hm
    cases hm
  case case11 nm tt ii cs rest o1 t1 w1 hcs e hx ih2 ih1 =>
    intro _ hm _ out recs warns heq
    rw [noMdx] at hm
    cases hm
  case case12 nm tt ii cs rest o1 t1 w1 hcs o t w hx ih2 ih1 =>
    intro _ hm _ out recs warns heq
    rw [noMdx] at hm
    cases hm
  case case13 n rest hne1 hne2 hne3 e hx ih =>
    intro _ _ _ out recs warns heq
    have := transformList_never_fails rest
    rw [hx] at this
    simp [isExceptOk] at this
  case case14 n rest hne1 hne2 hne3 outTail tocTail warnTail hx ih =>
    intro hd hm hs out recs warns heq
    cases n with
    | heading d hc => exact (hne1 d hc rfl).elim
    | container cs => exact (hne2 cs rfl).elim
    | mdxJsxFlowElement a b c d => exact (hne3 a b c d rfl).elim
    | exportNode =>
      simp only [transformList] at heq
      rw [hx] at heq
      dsimp only at heq
      injection heq with heq
      injection heq with hout heq
      subst hout
      have ihv := ih (by simpa [allDepthsOk] using hd) (by simpa [noMdx] using hm)
        (by simpa [spanSafe] using hs) outTail tocTail warnTail hx
      simp only [headingsIn, blocksIn]
      exact ihv
    | paragraph pc =>
      simp only [transformList] at heq
      rw [hx] at heq
      dsimp only at heq
      injection heq with heq
      injection heq with hout heq
      subst hout
      have ihv := ih (by simpa [allDepthsOk] using hd) (by simpa [noMdx] using hm)
        (by simpa [spanSafe] using hs) outTail tocTail warnTail hx
      simp only [headingsIn, blocksIn]
      exact ihv
    | leaf =>
      simp only [transformList] at heq
      rw [hx] at heq
      dsimp only at heq
      injection heq with heq
      injection heq with hout heq
      subst hout
      have ihv := ih (by simpa [allDepthsOk] using hd) (by simpa [noMdx] using hm)
        (by simpa [spanSafe] using hs) outTail tocTail warnTail hx
      simp only [headingsIn, blocksIn]
      exact ihv

/-- **C1 (amended).** For every document whose headings all have depth in
`[1,4]`, which contains no pre-existing structured block node, and in
which no heading is buried inside content absorbed into a section, the
transform produces exactly one structured block node per original heading
and the document order of the produced block nodes matches the document
order of the original headings: the block list of the output is exactly
the heading list of the input, heading by heading, each mapped to its
component name and parsed title/id. -/
theorem C1_one_block_per_heading (l : List Node)
    (hd : allDepthsOk l = true) (hm : noMdx l = true) (hs : spanSafe l = true)
    (out : List Node) (recs : List SectionRecord) (warns : List String)
    (heq : transformList l = .ok (out, recs, warns)) :
    blocksIn out = (headingsIn l).map headingSig ∧
    (blocksIn out).length = (headingsIn l).length := by
  have hmain := transformList_blocks l hd hm hs out recs warns heq
  exact ⟨hmain, by rw [hmain, List.length_map]⟩

/-- Witness for the amended C1 on a concrete two-heading document. -/
theorem C1_one_block_per_heading_witness :
    blocksIn [.mdxJsxFlowElement "Section" "T" "t" [],
              .mdxJsxFlowElement "SubSection" "S" "s" [.leaf]] =
      (headingsIn [.heading 1 [.text "T"], .heading 2 [.text "S"], .leaf]).map headingSig ∧
    (blocksIn [.mdxJsxFlowElement "Section" "T" "t" [],
               .mdxJsxFlowElement "SubSection" "S" "s" [.leaf]]).length =
      (headingsIn [.heading 1 [.text "T"], .heading 2 [.text "S"], .leaf]).length := by
  refine C1_one_block_per_heading
    [.heading 1 [.text "T"], .heading 2 [.text "S"], .leaf] ?_ ?_ ?_
    [.mdxJsxFlowElement "Section" "T" "t" [], .mdxJsxFlowElement "SubSection" "S" "s" [.leaf]]
    [⟨1, "T", "t"⟩, ⟨2, "S", "s"⟩] [depthOneWarning "T" "t"] ?_
  · simp +decide [allDepthsOk]
  · simp [noMdx]
  · simp +decide [spanSafe, noHeadings, isEnd]
  · have h1 : parseTextWithId (jsTrimEnd (extractTextFromHeading [Inline.text "T"])) =
        ⟨"T", "t"⟩ := by decide
    have h2 : parseTextWithId (jsTrimEnd (extractTextFromHeading [Inline.text "S"])) =
        ⟨"S", "s"⟩ := by decide
    simp +decide [transformList, isEnd, h1, h2, getComponentNameForDepth, componentMap]

/-- **C1 (counterexample).** As stated the claim fails: in the document
`[heading 2, blockquote [heading 2]]` (all depths in `[1,4]`, no
pre-existing block nodes) the second heading is buried inside the content
absorbed by the first, is never visited, and survives un-transformed — the
output contains one structured block node for two original headings. -/
theorem C1_buried_heading_counterexample :
    allDepthsOk [Node.heading 2 [], Node.container [Node.heading 2 []]] = true ∧
    noMdx [Node.heading 2 [], Node.container [Node.heading 2 []]] = true ∧
    spanSafe [Node.heading 2 [], Node.container [Node.heading 2 []]] = false ∧
    (headingsIn [Node.heading 2 [], Node.container [Node.heading 2 []]]).length = 2 ∧
    ∃ recs warns,
      transformList [Node.heading 2 [], Node.container [Node.heading 2 []]] =
        .ok ([Node.mdxJsxFlowElement "SubSection" "" ""
                [Node.container [Node.heading 2 []]]], recs, warns) ∧
      (blocksIn [Node.mdxJsxFlowElement "SubSection" "" ""
                  [Node.container [Node.heading 2 []]]]).length = 1 := by
  refine ⟨by simp +decide [allDepthsOk], by simp [noMdx],
          by simp +decide [spanSafe, noHeadings, isEnd],
          by simp [headingsIn], [⟨2, "", ""⟩], [], ?_, by simp [blocksIn]⟩
  have h0 : parseTextWithId (jsTrimEnd (extractTextFromHeading ([] : List Inline))) =
      ⟨"", ""⟩ := by decide
  simp +decide [transformList, isEnd, h0, getComponentNameForDepth, componentMap]

/-- **C10.** In the code-block transform, a meta entry whose quoted value
is the empty string (e.g. `id=""`) is treated as if the key were absent:
the parsed meta maps the key to an undefined value (`some none` under
`metaGet`), so no `id` attribute is added to the produced CodeBox element
— the element is the one an empty meta string would produce. -/
theorem C10_empty_quoted_meta_value (code lang meta : String)
    (h : metaGet (parseMeta meta) "id" = some none) :
    mkCodeBoxElement code lang meta = mkCodeBoxElement code lang "" ∧
    ∀ v, ("id", v) ∉ (mkCodeBoxElement code lang meta).attributes := by
  have ht : metaTruthy (parseMeta meta) "id" = none := by
    simp [metaTruthy, h]
  have h2 : mkCodeBoxElement code lang meta =
      { name := "CodeBox", attributes := [("code", code), ("language", lang)] } := by
    simp [mkCodeBoxElement, ht]
  have h3 : mkCodeBoxElement code lang "" =
      { name := "CodeBox", attributes := [("code", code), ("language", lang)] } := by
    simp [mkCodeBoxElement, metaTruthy, metaGet, parseMeta, scanMeta]
  refine ⟨h2.trans h3.symm, ?_⟩
  intro v hv
  rw [h2] at hv
  simp at hv

/-- Witness for C10 at the concrete meta string `id=""`. -/
theorem C10_empty_quoted_meta_value_witness :
    mkCodeBoxElement "print(1)" "python" "id=\"\"" = mkCodeBoxElement "print(1)" "python" "" :=
  (C10_empty_quoted_meta_value "print(1)" "python" "id=\"\"" (by decide)).1

/-- **C3.** The ToC nester returns an empty output on an absent or empty
input without error; a non-empty input with zero depth-1 records raises
the fatal "No heading of depth 1 found" error; an input with more than
one depth-1 record raises the fatal error reporting the number of depth-1
records found. -/
theorem C3_nester_validation :
    nestHeadings none = .ok [] ∧
    nestHeadings (some []) = .ok [] ∧
    (∀ recs : List SectionRecord, recs ≠ [] →
      (recs.filter (fun h => decide (h.depth = 1))).length = 0 →
      nestHeadings (some recs) = .error "No heading of depth 1 found") ∧
    (∀ recs : List SectionRecord,
      2 ≤ (recs.filter (fun h => decide (h.depth = 1))).length →
      nestHeadings (some recs) =
        .error ("Found " ++ toString (recs.filter (fun h => decide (h.depth = 1))).length ++
          " headings of depth 1, expected exactly 1")) := by
  refine ⟨rfl, rfl, ?_, ?_⟩
  · intro recs hne h0
    have hlen : ¬ recs.length = 0 := by
      simpa [List.length_eq_zero] using hne
    simp [nestHeadings, hlen, h0]
  · intro recs h2
    have hne : ¬ recs.length = 0 := by
      intro h
      rw [List.length_eq_zero] at h
      subst h
      simp at h2
    have h0 : ¬ (recs.filter (fun h => decide (h.depth = 1))).length = 0 := by omega
    have h1 : (recs.filter (fun h => decide (h.depth = 1))).length > 1 := by omega
    simp [nestHeadings, hne, h0, h1]

/-- Witness for C3 at concrete inputs: one record of depth 2 (missing
page title) and two records of depth 1 (ambiguous page title, count 2
reported). -/
theorem C3_nester_validation_witness :
    nestHeadings (some [⟨2, "A", "a"⟩]) = .error "No heading of depth 1 found" ∧
    nestHeadings (some [⟨1, "A", "a"⟩, ⟨1, "B", "b"⟩]) =
      .error "Found 2 headings of depth 1, expected exactly 1" := by
  constructor
  · exact C3_nester_validation.2.2.1 [⟨2, "A", "a"⟩] (by decide) (by decide)
  · have := C3_nester_validation.2.2.2 [⟨1, "A", "a"⟩, ⟨1, "B", "b"⟩] (by decide)
    simpa using this

/-- **C5.** A heading with no following boundary sibling (no later
sibling of type `heading` or `export`) absorbs exactly all siblings after
it: its content span runs to the end of the parent's children, and the
produced structured block node has precisely those siblings as children. -/
theorem C5_span_runs_to_end (depth : Nat) (hchildren : List Inline) (rest : List Node)
    (hd1 : 1 ≤ depth) (hd4 : depth ≤ 4) (hnb : ∀ m ∈ rest, isEnd m = false) :
    ∃ nm, componentMap depth = some nm ∧
      transformList (.heading depth hchildren :: rest) =
        .ok ([.mdxJsxFlowElement nm
                (parseTextWithId (jsTrimEnd (extractTextFromHeading hchildren))).title
                (parseTextWithId (jsTrimEnd (extractTextFromHeading hchildren))).id
                rest],
             [⟨depth,
               (parseTextWithId (jsTrimEnd (extractTextFromHeading hchildren))).title,
               (parseTextWithId (jsTrimEnd (extractTextFromHeading hchildren))).id⟩],
             if depth = 1 then
               [depthOneWarning
                 (parseTextWithId (jsTrimEnd (extractTextFromHeading hchildren))).title
                 (parseTextWithId (jsTrimEnd (extractTextFromHeading hchildren))).id]
             else []) := by
  have htake : rest.takeWhile (fun m => !isEnd m) = rest := by
    rw [List.takeWhile_eq_self_iff]
    intro a ha
    simp [hnb a ha]
  have hdrop : rest.dropWhile (fun m => !isEnd m) = [] := by
    rw [List.dropWhile_eq_nil_iff]
    intro a ha
    simp [hnb a ha]
  obtain ⟨nm, hnm⟩ : ∃ nm, componentMap depth = some nm := by
    interval_cases depth <;> exact ⟨_, rfl⟩
  refine ⟨nm, hnm, ?_⟩
  rw [transformList]
  simp only [if_pos (And.intro hd1 hd4), htake, hdrop, getComponentNameForDepth, hnm]
  rw [transformList]
  simp

/-- Witness for C5: a depth-2 heading followed by two non-boundary
siblings absorbs both of them. -/
theorem C5_span_runs_to_end_witness :
    ∃ nm, componentMap 2 = some nm ∧
      transformList [.heading 2 [.text "T"], .leaf, .paragraph []] =
        .ok ([.mdxJsxFlowElement nm
                (parseTextWithId (jsTrimEnd (extractTextFromHeading [.text "T"]))).title
                (parseTextWithId (jsTrimEnd (extractTextFromHeading [.text "T"]))).id
                [.leaf, .paragraph []]],
             [⟨2,
               (parseTextWithId (jsTrimEnd (extractTextFromHeading [.text "T"]))).title,
               (parseTextWithId (jsTrimEnd (extractTextFromHeading [.text "T"]))).id⟩],
             if 2 = 1 then
               [depthOneWarning
                 (parseTextWithId (jsTrimEnd (extractTextFromHeading [.text "T"]))).title
                 (parseTextWithId (jsTrimEnd (extractTextFromHeading [.text "T"]))).id]
             else []) := by
  refine C5_span_runs_to_end 2 [.text "T"] [.leaf, .paragraph []] (by decide) (by decide) ?_
  intro m hm
  fin_cases hm <;> rfl

/-! ## The ToC nester refines the declarative nesting rule -/

theorem latestAt_succ (ds : List Nat) (k d : Nat) :
    latestAt ds (k + 1) d =
      if ds.getD k 0 = d then some k else latestAt ds k d := by
  unfold latestAt
  rw [List.range_succ, List.foldl_append, List.foldl_cons, List.foldl_nil]

theorem bestUpTo_succ (ds : List Nat) (i m : Nat) :
    bestUpTo ds i (m + 1) =
      if ds.getD m 0 < ds.getD i 0 then
        match bestUpTo ds i m with
        | none => some m
        | some b => if ds.getD b 0 ≤ ds.getD m 0 then some m else some b
      else bestUpTo ds i m := by
  unfold bestUpTo
  rw [List.range_succ, List.foldl_append, List.foldl_cons, List.foldl_nil]

theorem bestUpTo_lt (ds : List Nat) (i : Nat) :
    ∀ m p, bestUpTo ds i m = some p → p < m := by
  intro m
  induction m with
  | zero => intro p h; simp [bestUpTo] at h
  | succ m ih =>
    intro p h
    rw [bestUpTo_succ] at h
    split at h
    · cases hb : bestUpTo ds i m with
      | none => rw [hb] at h; injection h with h; omega
      | some b =>
        rw [hb] at h
        dsimp only at h
        split at h
        · injection h with h; omega
        · injection h with h
          have := ih b hb
          omega
    · have := ih p h
      omega

theorem bestUpTo_cand (ds : List Nat) (i : Nat) :
    ∀ m p, bestUpTo ds i m = some p → ds.getD p 0 < ds.getD i 0 := by
  intro m
  induction m with
  | zero => intro p h; simp [bestUpTo] at h
  | succ m ih =>
    intro p h
    rw [bestUpTo_succ] at h
    split at h
    · next hc =>
      cases hb : bestUpTo ds i m with
      | none => rw [hb] at h; injection h with h; rw [← h]; exact hc
      | some b =>
        rw [hb] at h
        dsimp only at h
        split at h
        · injection h with h; rw [← h]; exact hc
        · injection h with h; rw [← h]; exact ih b hb
    · exact ih p h

theorem bestUpTo_none_iff (ds : List Nat) (i : Nat) :
    ∀ m, bestUpTo ds i m = none ↔ ∀ j, j < m → ¬(ds.getD j 0 < ds.getD i 0) := by
  intro m
  induction m with
  | zero => simp [bestUpTo]
  | succ m ih =>
    rw [bestUpTo_succ]
    constructor
    · intro h j hj hlt
      split at h
      · cases hb : bestUpTo ds i m with
        | none => rw [hb] at h; cases h
        | some b => rw [hb] at h; dsimp only at h; split at h <;> cases h
      · next hc =>
        rcases Nat.lt_succ_iff_lt_or_eq.mp hj with hj2 | hj2
        · exact (ih.mp h) j hj2 hlt
        · subst hj2; exact hc hlt
    · intro h
      rw [if_neg (h m (by omega))]
      exact ih.mpr (fun j hj => h j (by omega))

theorem bestUpTo_best (ds : List Nat) (i : Nat) :
    ∀ m p, bestUpTo ds i m = some p →
      ∀ j, j < m → ds.getD j 0 < ds.getD i 0 →
        ds.getD j 0 < ds.getD p 0 ∨ (ds.getD j 0 = ds.getD p 0 ∧ j ≤ p) := by
  intro m
  induction m with
  | zero => intro p h; simp [bestUpTo] at h
  | succ m ih =>
    intro p h j hj hcand
    rw [bestUpTo_succ] at h
    rcases Nat.lt_succ_iff_lt_or_eq.mp hj with hj2 | hj2
    · -- j < m : an old candidate
      split at h
      · next hc =>
        cases hb : bestUpTo ds i m with
        | none =>
          rw [hb] at h
          exact absurd hcand ((bestUpTo_none_iff ds i m).mp hb j hj2)
        | some b =>
          rw [hb] at h
          dsimp only at h
          have hold := ih b hb j hj2 hcand
          have hblt := bestUpTo_lt ds i m b hb
          split at h
          · next hle =>
            injection h with h
            rw [← h]
            rcases hold with h1 | ⟨h1, h2⟩
            · left; omega
            · by_cases hbm : ds.getD b 0 = ds.getD m 0
              · right
                refine ⟨by omega, by omega⟩
              · left
                omega
          · next hle =>
            injection h with h
            rw [← h]
            exact hold
      · exact ih p h j hj2 hcand
    · -- j = m : the new candidate
      subst hj2
      rw [if_pos hcand] at h
      cases hb : bestUpTo ds i j with
      | none => rw [hb] at h; injection h with h; subst h; right; exact ⟨rfl, le_refl _⟩
      | some b =>
        rw [hb] at h
        dsimp only at h
        have hblt := bestUpTo_lt ds i j b hb
        split at h
        · injection h with h; subst h; right; exact ⟨rfl, le_refl _⟩
        · next hle =>
          injection h with h
          subst h
          left
          omega

theorem latestAt_none_iff (ds : List Nat) (d : Nat) :
    ∀ k, latestAt ds k d = none ↔ ∀ j, j < k → ds.getD j 0 ≠ d := by
  intro k
  induction k with
  | zero => simp [latestAt]
  | succ k ih =>
    rw [latestAt_succ]
    constructor
    · intro h j hj
      split at h
      · cases h
      · next hne =>
        rcases Nat.lt_succ_iff_lt_or_eq.mp hj with hj2 | rfl
        · exact ih.mp h j hj2
        · exact hne
    · intro h
      rw [if_neg (h k (by omega))]
      exact ih.mpr (fun j hj => h j (by omega))

theorem latestAt_some_iff (ds : List Nat) (d : Nat) :
    ∀ k p, latestAt ds k d = some p ↔
      (p < k ∧ ds.getD p 0 = d ∧ ∀ j, p < j → j < k → ds.getD j 0 ≠ d) := by
  intro k
  induction k with
  | zero => intro p; simp [latestAt]
  | succ k ih =>
    intro p
    rw [latestAt_succ]
    constructor
    · intro h
      split at h
      · next hk =>
        injection h with h
        subst h
        exact ⟨by omega, hk, fun j h1 h2 => by omega⟩
      · next hk =>
        obtain ⟨h1, h2, h3⟩ := (ih p).mp h
        refine ⟨by omega, h2, fun j hj1 hj2 => ?_⟩
        rcases Nat.lt_succ_iff_lt_or_eq.mp hj2 with hj3 | rfl
        · exact h3 j hj1 hj3
        · exact hk
    · intro ⟨h1, h2, h3⟩
      by_cases hk : ds.getD k 0 = d
      · rw [if_pos hk]
        rcases Nat.lt_succ_iff_lt_or_eq.mp h1 with h4 | rfl
        · exact absurd hk (h3 k h4 (by omega))
        · rfl
      · rw [if_neg hk]
        rcases Nat.lt_succ_iff_lt_or_eq.mp h1 with h4 | rfl
        · exact (ih p).mpr ⟨h4, h2, fun j hj1 hj2 => h3 j hj1 (by omega)⟩
        · exact absurd h2 hk

theorem scanSpec_eq_none (ds : List Nat) (k : Nat) :
    ∀ m, (∀ d, 1 ≤ d → d ≤ m → latestAt ds k d = none) → scanSpec ds k m = none := by
  intro m
  induction m with
  | zero => intro _; rfl
  | succ m ih =>
    intro h
    rw [scanSpec, h (m + 1) (by omega) (by omega)]
    exact ih (fun d h1 h2 => h d h1 (by omega))

theorem scanSpec_eq_some (ds : List Nat) (k : Nat) :
    ∀ m dstar p, 1 ≤ dstar → dstar ≤ m → latestAt ds k dstar = some p →
      (∀ d, dstar < d → d ≤ m → latestAt ds k d = none) →
      scanSpec ds k m = some p := by
  intro m
  induction m with
  | zero => intro dstar p h1 h2; omega
  | succ m ih =>
    intro dstar p h1 h2 hp hnone
    by_cases hd : dstar = m + 1
    · rw [scanSpec]
      have hx : latestAt ds k (Nat.succ m) = some p := by
        have hms : Nat.succ m = dstar := by omega
        rw [hms]
        exact hp
      rw [hx]
    · rw [scanSpec, hnone (m + 1) (by omega) (by omega)]
      exact ih dstar p h1 (by omega) hp (fun d ha hb => hnone d ha (by omega))

theorem findParentFrom_eq_scanSpec (pm : List (Nat × Nat)) (ds : List Nat) (k : Nat) :
    ∀ m, (∀ d, 1 ≤ d → d ≤ m → lookupDepth pm d = latestAt ds k d) →
      findParentFrom pm m = scanSpec ds k m := by
  intro m
  induction m with
  | zero => intro _; rfl
  | succ m ih =>
    intro h
    rw [findParentFrom, scanSpec, h (m + 1) (by omega) (by omega)]
    cases latestAt ds k (m + 1) with
    | some j => rfl
    | none => exact ih (fun d h1 h2 => h d h1 (by omega))

theorem scanSpec_eq_bestUpTo (ds : List Nat) (k : Nat)
    (hds : ∀ j, j < k → 1 ≤ ds.getD j 0) (hk1 : 1 ≤ ds.getD k 0) :
    scanSpec ds k (ds.getD k 0 - 1) = bestUpTo ds k k := by
  cases hbest : bestUpTo ds k k with
  | none =>
    apply scanSpec_eq_none
    intro d h1 h2
    rw [latestAt_none_iff]
    intro j hj hdj
    exact (bestUpTo_none_iff ds k k).mp hbest j hj (by omega)
  | some p =>
    have hplt := bestUpTo_lt ds k k p hbest
    have hpcand := bestUpTo_cand ds k k p hbest
    have hpbest := bestUpTo_best ds k k p hbest
    apply scanSpec_eq_some ds k _ (ds.getD p 0) p (hds p hplt) (by omega)
    · rw [latestAt_some_iff]
      refine ⟨hplt, rfl, fun j hj1 hj2 hdj => ?_⟩
      rcases hpbest j hj2 (by omega) with h | ⟨h, h2⟩
      · omega
      · omega
    · intro d hd1 hd2
      rw [latestAt_none_iff]
      intro j hj hdj
      rcases hpbest j hj (by omega) with h | ⟨h, h2⟩
      · omega
      · omega

theorem specParentIdx_lt (ds : List Nat) (j q : Nat) (h : specParentIdx ds j = some q) :
    q < j :=
  bestUpTo_lt ds j j q h

theorem updateAt_length {α : Type} : ∀ (l : List α) (n : Nat) (f : α → α),
    (updateAt l n f).length = l.length
  | [], _, _ => rfl
  | _ :: l, 0, f => rfl
  | a :: l, Nat.succ k, f => by
    rw [updateAt]
    simp [updateAt_length l k f]

theorem updateAt_getD_eq {α : Type} (d : α) :
    ∀ (l : List α) (n : Nat) (f : α → α), n < l.length →
      (updateAt l n f).getD n d = f (l.getD n d)
  | [], n, f, h => by simp at h
  | a :: l, 0, f, h => rfl
  | a :: l, Nat.succ k, f, h => by
    rw [updateAt]
    simp only [List.getD_cons_succ]
    exact updateAt_getD_eq d l k f (by simpa using h)

theorem updateAt_getD_ne {α : Type} (d : α) :
    ∀ (l : List α) (n : Nat) (f : α → α) (i : Nat), i ≠ n →
      (updateAt l n f).getD i d = l.getD i d
  | [], n, f, i, h => by simp [updateAt]
  | a :: l, 0, f, 0, h => absurd rfl h
  | a :: l, 0, f, Nat.succ j, h => rfl
  | a :: l, Nat.succ k, f, 0, h => rfl
  | a :: l, Nat.succ k, f, Nat.succ j, h => by
    rw [updateAt]
    simp only [List.getD_cons_succ]
    exact updateAt_getD_ne d l k f j (by omega)

theorem getD_map_depth (f : List SectionRecord) (k : Nat) (hk : k < f.length) :
    (f.map (fun r => r.depth)).getD k 0 = (f.getD k ⟨0, "", ""⟩).depth := by
  rw [List.getD_eq_getElem?_getD, List.getD_eq_getElem?_getD,
      List.getElem?_eq_getElem (l := f) hk,
      List.getElem?_eq_getElem (l := f.map (fun r => r.depth)) (by simpa using hk)]
  simp

theorem filter_range_parent_eq_nil (ds : List Nat) (i k : Nat) (hik : k ≤ i) :
    (List.range k).filter (fun j => decide (specParentIdx ds j = some i)) = [] := by
  rw [List.filter_eq_nil_iff]
  intro j hj
  simp only [List.mem_range] at hj
  simp only [decide_eq_true_eq]
  intro hP
  have := specParentIdx_lt ds j i hP
  omega

theorem range_succ_filter_parent (ds : List Nat) (k : Nat) (q : Option Nat) :
    (List.range (k + 1)).filter (fun j => decide (specParentIdx ds j = q)) =
      (List.range k).filter (fun j => decide (specParentIdx ds j = q)) ++
        (if specParentIdx ds k = q then [k] else []) := by
  rw [List.range_succ, List.filter_append]
  by_cases h : specParentIdx ds k = q <;> simp [h]

theorem getD_append_left {α : Type} (d : α) (a b : List α) (i : Nat) (h : i < a.length) :
    (a ++ b).getD i d = a.getD i d := by
  rw [List.getD_eq_getElem?_getD, List.getD_eq_getElem?_getD,
      List.getElem?_append_left h]

theorem getD_append_right {α : Type} (d : α) (a b : List α) (i : Nat) (h : a.length ≤ i) :
    (a ++ b).getD i d = b.getD (i - a.length) d := by
  rw [List.getD_eq_getElem?_getD, List.getD_eq_getElem?_getD,
      List.getElem?_append_right h]

theorem getD_of_length_le {α : Type} (d : α) (l : List α) (i : Nat) (h : l.length ≤ i) :
    l.getD i d = d := by
  rw [List.getD_eq_getElem?_getD, List.getElem?_eq_none h]
  rfl

theorem take_succ_getD (f : List SectionRecord) (k : Nat) (hk : k < f.length) :
    f.take (k + 1) = f.take k ++ [f.getD k ⟨0, "", ""⟩] := by
  rw [List.take_succ, List.getElem?_eq_getElem hk]
  rw [List.getD_eq_getElem?_getD, List.getElem?_eq_getElem hk]
  rfl

theorem nestStep_inv (f : List SectionRecord) (k : Nat) (st : NestGraph)
    (hdep : ∀ r ∈ f, 2 ≤ r.depth) (hk : k < f.length) (inv : NestInv f k st) :
    NestInv f (k + 1) (nestStep st (f.getD k ⟨0, "", ""⟩)) := by
  have hds : ∀ j, j < f.length →
      (f.map (fun r => r.depth)).getD j 0 = (f.getD j ⟨0, "", ""⟩).depth :=
    fun j hj => getD_map_depth f j hj
  have hmem : f.getD k ⟨0, "", ""⟩ ∈ f := by
    rw [List.getD_eq_getElem?_getD, List.getElem?_eq_getElem hk]
    exact List.getElem_mem hk
  have hdk2 : 2 ≤ (f.getD k ⟨0, "", ""⟩).depth := hdep _ hmem
  have hdsk : (f.map (fun r => r.depth)).getD k 0 = (f.getD k ⟨0, "", ""⟩).depth :=
    hds k hk
  have hdsge : ∀ j, j < f.length → 1 ≤ (f.map (fun r => r.depth)).getD j 0 := by
    intro j hj
    rw [hds j hj]
    have : f.getD j ⟨0, "", ""⟩ ∈ f := by
      rw [List.getD_eq_getElem?_getD, List.getElem?_eq_getElem hj]
      exact List.getElem_mem hj
    have := hdep _ this
    omega
  have hentlen : st.entries.length = k := by
    rw [inv.entries, List.length_take]
    omega
  -- the parent the step finds is the declarative parent
  have hfp : findParentFrom
      (((f.getD k ⟨0, "", ""⟩).depth, st.entries.length) :: st.parentsMap)
      ((f.getD k ⟨0, "", ""⟩).depth - 1) =
      specParentIdx (f.map (fun r => r.depth)) k := by
    have h1 : ∀ d, 1 ≤ d → d ≤ (f.getD k ⟨0, "", ""⟩).depth - 1 →
        lookupDepth (((f.getD k ⟨0, "", ""⟩).depth, st.entries.length) :: st.parentsMap) d =
          latestAt (f.map (fun r => r.depth)) k d := by
      intro d hd1 hd2
      rw [lookupDepth, if_neg (by omega)]
      exact inv.parents d
    rw [findParentFrom_eq_scanSpec _ (f.map (fun r => r.depth)) k _ h1]
    have h2 : (f.getD k ⟨0, "", ""⟩).depth - 1 =
        (f.map (fun r => r.depth)).getD k 0 - 1 := by rw [hdsk]
    rw [h2]
    exact scanSpec_eq_bestUpTo (f.map (fun r => r.depth)) k
      (fun j hj => hdsge j (by omega)) (by omega)
  -- common facts
  have hpm : ∀ d, lookupDepth
      (((f.getD k ⟨0, "", ""⟩).depth, st.entries.length) :: st.parentsMap) d =
      latestAt (f.map (fun r => r.depth)) (k + 1) d := by
    intro d
    rw [latestAt_succ, hdsk, lookupDepth]
    by_cases hd : (f.getD k ⟨0, "", ""⟩).depth = d
    · rw [if_pos hd, if_pos hd, hentlen]
    · rw [if_neg hd, if_neg hd]
      exact inv.parents d
  simp only [nestStep]
  cases hP : specParentIdx (f.map (fun r => r.depth)) k with
  | some p =>
    rw [hfp, hP]
    have hplt : p < k := specParentIdx_lt _ k p hP
    refine ⟨?_, ?_, ?_, ?_, ?_⟩
    · -- entries
      rw [inv.entries, take_succ_getD f k hk]
    · -- childIdx length
      rw [updateAt_length, List.length_append, inv.childLen]
      rfl
    · -- children table
      intro i
      rw [range_succ_filter_parent, hentlen]
      by_cases hip : i = p
      · subst hip
        rw [updateAt_getD_eq [] _ _ _
              (by rw [List.length_append, inv.childLen]; simp only [List.length_cons, List.length_nil]; omega),
            getD_append_left [] _ _ _ (by rw [inv.childLen]; omega),
            inv.child i, if_pos hP]
      · have hPi : ¬ specParentIdx (f.map (fun r => r.depth)) k = some i := by
          rw [hP]
          simp
          omega
        rw [updateAt_getD_ne [] _ _ _ _ hip, if_neg hPi, List.append_nil]
        by_cases hik : i < k
        · rw [getD_append_left [] _ _ _ (by rw [inv.childLen]; omega), inv.child i]
        · rw [filter_range_parent_eq_nil _ _ _ (by omega)]
          by_cases hik2 : i = k
          · subst hik2
            rw [getD_append_right [] _ _ _ (by rw [inv.childLen]),
                inv.childLen, Nat.sub_self]
            rfl
          · rw [getD_of_length_le [] _ _
                (by rw [List.length_append, inv.childLen]; simp only [List.length_cons, List.length_nil]; omega)]
    · -- roots
      rw [inv.roots, range_succ_filter_parent, if_neg (by rw [hP]; simp),
          List.append_nil]
    · -- parents map
      exact hpm
  | none =>
    rw [hfp, hP]
    refine ⟨?_, ?_, ?_, ?_, ?_⟩
    · rw [inv.entries, take_succ_getD f k hk]
    · rw [List.length_append, inv.childLen]
      rfl
    · intro i
      rw [range_succ_filter_parent,
          if_neg (by rw [hP]; simp), List.append_nil]
      by_cases hik : i < k
      · rw [getD_append_left [] _ _ _ (by rw [inv.childLen]; omega), inv.child i]
      · rw [filter_range_parent_eq_nil _ _ _ (by omega)]
        by_cases hik2 : i = k
        · subst hik2
          rw [getD_append_right [] _ _ _ (by rw [inv.childLen]),
              inv.childLen, Nat.sub_self]
          rfl
        · rw [getD_of_length_le [] _ _
              (by rw [List.length_append, inv.childLen]; simp only [List.length_cons, List.length_nil]; omega)]
    · rw [inv.roots, range_succ_filter_parent, if_pos hP, hentlen]
    · exact hpm

theorem nestLoop_inv (f : List SectionRecord) (hdep : ∀ r ∈ f, 2 ≤ r.depth) :
    ∀ (suf : List SectionRecord) (k : Nat) (st : NestGraph),
      k ≤ f.length → f.drop k = suf → NestInv f k st →
      NestInv f f.length (nestLoop st suf) := by
  intro suf
  induction suf with
  | nil =>
    intro k st hk hdrop inv
    rw [nestLoop]
    have hkl : k = f.length := by
      have := congrArg List.length hdrop
      simp [List.length_drop] at this
      omega
    rw [← hkl]
    exact inv
  | cons r suf ih =>
    intro k st hk hdrop inv
    have hk2 : k < f.length := by
      by_contra hcon
      rw [List.drop_eq_nil_of_le (by omega)] at hdrop
      cases hdrop
    have hcons : f.drop k = f.getD k ⟨0, "", ""⟩ :: f.drop (k + 1) := by
      rw [List.drop_eq_getElem_cons hk2]
      rw [List.getD_eq_getElem?_getD, List.getElem?_eq_getElem hk2]
      rfl
    rw [hcons] at hdrop
    injection hdrop with hr hsuf
    rw [nestLoop, ← hr]
    exact ih (k + 1) _ (by omega) hsuf (nestStep_inv f k st hdep hk2 inv)

theorem nestLoop_final (f : List SectionRecord) (hdep : ∀ r ∈ f, 2 ≤ r.depth) :
    NestInv f f.length (nestLoop ⟨[], [], [], []⟩ f) := by
  refine nestLoop_inv f hdep f 0 _ (by omega) (by simp) ⟨rfl, rfl, ?_, rfl, ?_⟩
  · intro i
    simp [List.getD]
  · intro d
    rfl

/-- **C2.** On every valid flat record list (record depths at least 1,
exactly one record of depth 1), the nester's output is exactly the
declaratively specified nesting: the depth-1 record is excluded, and
every remaining record hangs under the most-recently-created node at the
greatest depth strictly below its own (a new top-level root when none
exists), registration overwriting only the record's own depth. -/
theorem C2_nesting_rule (recs : List SectionRecord)
    (hdep : ∀ r ∈ recs, 1 ≤ r.depth)
    (hone : (recs.filter (fun h => decide (h.depth = 1))).length = 1) :
    nestHeadings (some recs) = .ok (specNest recs) := by
  have hne : ¬ recs.length = 0 := by
    intro h
    rw [List.length_eq_zero] at h
    subst h
    simp at hone
  have hnot0 : ¬ (recs.filter (fun h => decide (h.depth = 1))).length = 0 := by omega
  have hnot1 : ¬ (recs.filter (fun h => decide (h.depth = 1))).length > 1 := by omega
  have hdep2 : ∀ r ∈ recs.filter (fun h => !decide (h.depth = 1)), 2 ≤ r.depth := by
    intro r hr
    rw [List.mem_filter] at hr
    have h1 := hdep r hr.1
    have h2 := hr.2
    simp only [Bool.not_eq_true', decide_eq_false_iff_not] at h2
    omega
  have hinv := nestLoop_final (recs.filter (fun h => !decide (h.depth = 1))) hdep2
  simp only [nestHeadings]
  rw [if_neg hne, if_neg hnot0, if_neg hnot1]
  unfold specNest
  have hentries : (nestLoop ⟨[], [], [], []⟩
      (recs.filter (fun h => !decide (h.depth = 1)))).entries =
      recs.filter (fun h => !decide (h.depth = 1)) := by
    rw [hinv.entries, List.take_length]
  have hchild : (nestLoop ⟨[], [], [], []⟩
      (recs.filter (fun h => !decide (h.depth = 1)))).childIdx =
      specChildTable ((recs.filter (fun h => !decide (h.depth = 1))).map
        (fun r => r.depth)) := by
    apply List.ext_getElem
    · rw [hinv.childLen]
      simp [specChildTable]
    · intro i h1 h2
      have hg : (nestLoop ⟨[], [], [], []⟩
          (recs.filter (fun h => !decide (h.depth = 1)))).childIdx[i] =
          (nestLoop ⟨[], [], [], []⟩
            (recs.filter (fun h => !decide (h.depth = 1)))).childIdx.getD i [] := by
        rw [List.getD_eq_getElem?_getD, List.getElem?_eq_getElem h1]
        rfl
      rw [hg, hinv.child i]
      unfold specChildTable
      rw [List.getElem_map, List.getElem_range]
      rw [List.length_map]
  have hroots : (nestLoop ⟨[], [], [], []⟩
      (recs.filter (fun h => !decide (h.depth = 1)))).roots =
      specRoots ((recs.filter (fun h => !decide (h.depth = 1))).map
        (fun r => r.depth)) := by
    rw [hinv.roots]
    unfold specRoots
    rw [List.length_map]
  rw [hentries, hchild, hroots]

/-- Witness for C2 at the concrete record list
`[{1,t,t}, {2,A,a}, {3,B,b}, {2,C,c}]` (the specification's own worked
example). -/
theorem C2_nesting_rule_witness :
    nestHeadings (some [⟨1, "t", "t"⟩, ⟨2, "A", "a"⟩, ⟨3, "B", "b"⟩, ⟨2, "C", "c"⟩]) =
      .ok (specNest [⟨1, "t", "t"⟩, ⟨2, "A", "a"⟩, ⟨3, "B", "b"⟩, ⟨2, "C", "c"⟩]) :=
  C2_nesting_rule [⟨1, "t", "t"⟩, ⟨2, "A", "a"⟩, ⟨3, "B", "b"⟩, ⟨2, "C", "c"⟩]
    (by decide) (by decide)
